import Mathlib

/-!
Verification of the R1CS→QAP arithmetization pipeline (`field.rs`,
`polynomial.rs`, `r1cs.rs`, `qap.rs`, `main.rs`).

Modelling conventions:
* `BigInt` is `ℤ`; Rust's `%` on `BigInt` is truncated remainder, i.e. `Int.tmod`.
* `FieldElement` is embedded verbatim as a structure carrying `value` and the
  modulus `p`, for the representation-invariant claims.  The polynomial /
  R1CS / QAP layers combine only coefficients of one common modulus, so they
  are embedded with coefficients in `ZMod p` (the operations below mirror the
  Rust code line by line; the struct-to-`ZMod` projection is proved to commute
  with every operation in the `phi` lemmas).
* `BigInt::modinv` returns the unique modular inverse when
  `gcd(value, p) = 1` and signals failure otherwise; it is embedded as the
  (extensionally identical) exhaustive search `zmodInv`, which is kernel
  computable.  Rust panics are modelled as `none`; every theorem below stays
  in the panic-free region of the corresponding Rust function.
* The two long-division loops in `polynomial.rs` are `while` loops whose
  termination is part of what is being verified, so they are embedded with an
  explicit fuel parameter; `none` means the loop either panicked or did not
  finish within the given fuel, and nontermination is expressed as `none` for
  every fuel.
-/

/-- Rust field element: a residue `value` together with its modulus `p`
(`field.rs`, struct `FieldElement`). -/
structure FieldElement where
  value : ℤ
  p : ℤ
deriving DecidableEq, Repr

namespace FieldElement

/-- `FieldElement::new`: normalize into `[0, p)` via `((value % p) + p) % p`
with Rust's truncated `%` (`field.rs` lines 12–21). -/
def new (value p : ℤ) : FieldElement :=
  ⟨((value.tmod p) + p).tmod p, p⟩

/-- `Add for &FieldElement` (`field.rs` lines 87–94); the source asserts the
moduli agree, so the embedding is only used at equal moduli. -/
def add (a b : FieldElement) : FieldElement := new (a.value + b.value) a.p

/-- `Sub for &FieldElement` (`field.rs` lines 96–103). -/
def sub (a b : FieldElement) : FieldElement := new (a.value - b.value) a.p

/-- `Mul for &FieldElement` (`field.rs` lines 105–112). -/
def mul (a b : FieldElement) : FieldElement := new (a.value * b.value) a.p

/-- `BigInt::modinv(value, p)`: the unique inverse of `value` modulo `p` when
it exists, `None` otherwise.  Embedded as exhaustive search over `[0, p)`,
which computes the same function. -/
def modinv (value p : ℤ) : Option ℤ :=
  ((List.range p.toNat).find? (fun x : ℕ => (value * (x : ℤ)).emod p == 1)).map
    (fun x : ℕ => (x : ℤ))

/-- `FieldElement::inverse` (`field.rs` lines 24–28); the source panics when
no inverse exists, modelled as `none`. -/
def inverse (a : FieldElement) : Option FieldElement :=
  (modinv a.value a.p).map (fun x => new x a.p)

/-- `FieldElement::div` and the `Div` impl (`field.rs` lines 31–33, 114–122):
`a / b = a * b⁻¹`, inheriting the failure of `inverse`. -/
def fdiv (a b : FieldElement) : Option FieldElement :=
  b.inverse.map (fun binv => a.mul binv)

/-- Loop body of `FieldElement::pow` (`field.rs` lines 36–56): square and
multiply, halving the exponent each round. -/
def powLoop : FieldElement → FieldElement → ℕ → FieldElement
  | res, _, 0 => res
  | res, base, e + 1 =>
      powLoop (if (e + 1) % 2 = 1 then res.mul base else res)
        (base.mul base) ((e + 1) / 2)
termination_by _ _ e => e
decreasing_by exact Nat.div_lt_self (Nat.succ_pos _) one_lt_two

/-- `FieldElement::pow` for a non-negative exponent. -/
def pow (a : FieldElement) (e : ℕ) : FieldElement :=
  powLoop (new 1 a.p) a e

/-- `FieldElement::sqrt` (`field.rs` lines 60–84): only for `p % 4 == 3`
(the source panics otherwise; that panic branch is modelled as `none` and no
theorem below touches it); computes the candidate `a^((p+1)/4)` and verifies
it by squaring. -/
def sqrt (a : FieldElement) : Option FieldElement :=
  if a.p.tmod 4 = 3 then
    let root := a.pow (((a.p + 1).tdiv 4).toNat)
    if root.mul root = a then some root else none
  else none

/-- Representation invariant claimed by the spec: `0 ≤ value < modulus`. -/
def wf (a : FieldElement) : Prop := 0 ≤ a.value ∧ a.value < a.p

instance (a : FieldElement) : Decidable a.wf := by unfold wf; infer_instance

end FieldElement

/-! ## Dense polynomials over `ZMod p` (`polynomial.rs`)

A polynomial is its coefficient list, `coefficients[i]` the weight of `x^i`. -/

variable {p : ℕ}

/-- Pop trailing zeros while more than one coefficient remains, expressed on
the reversed list (`Polynomial::new`, `polynomial.rs` lines 36–43 pops from
the back; this helper drops from the front of the reverse). -/
def dropZeros1 : List (ZMod p) → List (ZMod p)
  | [] => []
  | [a] => [a]
  | a :: b :: rest => if a = 0 then dropZeros1 (b :: rest) else a :: b :: rest

/-- `Polynomial::new`: trim trailing zero coefficients, keeping at least one
coefficient of a nonempty list (`polynomial.rs` lines 36–43). -/
def polyNew (c : List (ZMod p)) : List (ZMod p) :=
  (dropZeros1 c.reverse).reverse

/-- `Polynomial::trim` (`polynomial.rs` lines 257–279): same trimming loop as
`Polynomial::new` (for an empty list both return the empty list). -/
def polyTrim (c : List (ZMod p)) : List (ZMod p) := polyNew c

/-- `Polynomial::degree` (`polynomial.rs` lines 45–50): `len − 1`, and `0`
for the empty list (ℕ subtraction gives both cases). -/
def polyDegree (c : List (ZMod p)) : ℕ := c.length - 1

/-- `Polynomial::evaluate` by Horner's rule over the reversed coefficients
(`polynomial.rs` lines 53–60). -/
def polyEval (c : List (ZMod p)) (x : ZMod p) : ZMod p :=
  c.reverse.foldl (fun result coeff => result * x + coeff) 0

/-- `Add for &Polynomial` (`polynomial.rs` lines 282–312): for each index
below the zero-padded union length, add the two coefficients (missing ones
read as `0`), then the constructor's trim. -/
def polyAdd (a b : List (ZMod p)) : List (ZMod p) :=
  polyNew ((List.range (max a.length b.length)).map
    (fun i => a.getD i 0 + b.getD i 0))

/-- `Sub for &Polynomial` (`polynomial.rs` lines 315–332), embedded exactly
as written in the source: both operands of the coefficient subtraction are
read from `self` (`self.coefficients.get(i)` twice), so each coefficient of
the result is `a_i - a_i`. -/
def polySub (a b : List (ZMod p)) : List (ZMod p) :=
  polyNew ((List.range (max a.length b.length)).map
    (fun i => a.getD i 0 - a.getD i 0))

/-- Convolution coefficient `k` of the `Mul` impl's double loop
(`polynomial.rs` lines 334–351): the sum of `a_i * b_j` over `i + j = k`,
with out-of-range coefficients read as `0`. -/
def convCoeff (a b : List (ZMod p)) (k : ℕ) : ZMod p :=
  ((List.range (k + 1)).map (fun i => a.getD i 0 * b.getD (k - i) 0)).sum

/-- `Mul for &Polynomial` (`polynomial.rs` lines 334–351): result length
`len a + len b − 1`, then the constructor's trim.  (The source panics on an
empty left operand when reading the modulus; no theorem evaluates that
case.) -/
def polyMul (a b : List (ZMod p)) : List (ZMod p) :=
  polyNew ((List.range (a.length + b.length - 1)).map (convCoeff a b))

/-- `Polynomial::scale` (`polynomial.rs` lines 251–254). -/
def polyScale (a : List (ZMod p)) (factor : ZMod p) : List (ZMod p) :=
  polyNew (a.map (fun c => c * factor))

/-- `BigInt::modinv` at the `ZMod` level (see `FieldElement.modinv`): the
unique multiplicative inverse when the value is coprime to `p`, `none`
otherwise (the source panics). -/
def zmodInv (a : ZMod p) : Option (ZMod p) :=
  ((List.range p).find? (fun x : ℕ => a * (x : ZMod p) == 1)).map
    (fun x : ℕ => (x : ZMod p))

/-- The `while` loop of `Polynomial::div` (`polynomial.rs` lines 84–121),
with explicit fuel.  The guard compares coefficient-list lengths; the body
divides the leading coefficients (`none` models the panic of `inverse` when
the divisor's leading coefficient is not invertible), subtracts
`factor·x^diff·divisor` from the remainder by scaling with `-1` and adding,
and re-trims. -/
def divLoop (d : List (ZMod p)) :
    ℕ → List (ZMod p) → List (ZMod p) → Option (List (ZMod p) × List (ZMod p))
  | 0, _, _ => none
  | fuel + 1, q, r =>
    if d.length ≤ r.length then
      if r = [] then some (polyTrim q, polyTrim r)
      else
        match zmodInv (d.getLast?.getD 0) with
        | none => none
        | some ldinv =>
          let diff := polyDegree r - polyDegree d
          let factor := (r.getLast?.getD 0) * ldinv
          let term := polyNew (List.replicate diff 0 ++ [factor])
          divLoop d fuel (polyAdd q term)
            (polyTrim (polyAdd r (polyScale (polyMul term d) (0 - 1))))
    else some (polyTrim q, polyTrim r)

/-- `Polynomial::div` (`polynomial.rs` lines 64–124) with the given loop
fuel: trim both inputs, fail on an empty (zero) divisor, return zero
quotient and remainder for an empty dividend, otherwise run the long-division
loop starting from quotient `new [0; len dividend]`. -/
def polyDivFuel (fuel : ℕ) (dividend divisor : List (ZMod p)) :
    Option (List (ZMod p) × List (ZMod p)) :=
  let dv := polyTrim dividend
  let ds := polyTrim divisor
  if ds = [] then none
  else if dv = [] then some ([], [])
  else divLoop ds fuel (polyNew (List.replicate dv.length 0)) dv

/-- `Polynomial::div` with fuel ample for every terminating run (the loop,
when it makes progress at all, shortens the remainder each iteration, so
`len dividend + 1` rounds always suffice; `none` for more fuel too means the
source loops forever). -/
def polyDiv (dividend divisor : List (ZMod p)) :
    Option (List (ZMod p) × List (ZMod p)) :=
  polyDivFuel ((polyTrim dividend).length + 1) dividend divisor

/-- The `while` loop of `Polynomial::div_rem` (`polynomial.rs` lines
150–178): guard on degrees plus an explicit zero-remainder test, quotient
written into a fixed-size vector, and the subtraction performed by the `Sub`
impl (`polySub`). -/
def divRemLoop (d : List (ZMod p)) :
    ℕ → List (ZMod p) → List (ZMod p) → Option (List (ZMod p) × List (ZMod p))
  | 0, _, _ => none
  | fuel + 1, q, r =>
    if polyDegree d ≤ polyDegree r ∧ ¬(r.length = 1 ∧ r.getD 0 0 = 0) then
      match zmodInv (d.getLast?.getD 0) with
      | none => none
      | some ldinv =>
        let factor := (r.getLast?.getD 0) * ldinv
        let diff := polyDegree r - polyDegree d
        divRemLoop d fuel (q.set diff factor)
          (polySub r (polyNew (List.replicate diff 0 ++ d.map (fun c => c * factor))))
    else some (polyNew q, r)

/-- `Polynomial::div_rem` (`polynomial.rs` lines 127–181): explicit panic on
the `[0]` divisor, early return `([0], dividend)` when the dividend's degree
is smaller, else the loop.  (The source also panics on an empty dividend when
reading the modulus; no theorem evaluates that case.) -/
def polyDivRem (dividend divisor : List (ZMod p)) :
    Option (List (ZMod p) × List (ZMod p)) :=
  if divisor.length = 1 ∧ divisor.getD 0 0 = 0 then none
  else if polyDegree dividend < polyDegree divisor then
    some ([(0 : ZMod p)], dividend)
  else divRemLoop divisor (dividend.length + 1)
    (List.replicate (polyDegree dividend - polyDegree divisor + 1) 0) dividend

/-- Inner loop of `Polynomial::lagrange_interpolation` (`polynomial.rs`
lines 217–236): for basis index `i`, accumulate the numerator polynomial
`Π_{j≠i} (x − j)` and the scalar denominator `Π_{j≠i} (i − j)`. -/
def lagrangeNumDen (n i : ℕ) : List (ZMod p) × ZMod p :=
  (List.range n).foldl
    (fun nd j =>
      if i = j then nd
      else (polyMul nd.1 [0 - (j : ZMod p), 1], nd.2 * ((i : ZMod p) - (j : ZMod p))))
    ([1], 1)

/-- Outer loop of `Polynomial::lagrange_interpolation` (`polynomial.rs`
lines 199–245): skip zero y-values, invert the denominator (`none` models
the panic when it is not invertible), scale and accumulate. -/
def lagrangeAux (ys : List (ZMod p)) (n : ℕ) :
    List ℕ → List (ZMod p) → Option (List (ZMod p))
  | [], total => some total
  | i :: rest, total =>
    if ys.getD i 0 = 0 then lagrangeAux ys n rest total
    else
      match zmodInv (lagrangeNumDen (p := p) n i).2 with
      | none => none
      | some dinv =>
        lagrangeAux ys n rest
          (polyAdd total (polyScale (polyScale (lagrangeNumDen (p := p) n i).1 dinv)
            (ys.getD i 0)))

/-- `Polynomial::lagrange_interpolation` (`polynomial.rs` lines 185–248):
empty input returns the empty (zero) polynomial, otherwise fold the basis
contributions onto the zero polynomial `[0]`. -/
def lagrange_interpolation (ys : List (ZMod p)) : Option (List (ZMod p)) :=
  if ys = [] then some []
  else lagrangeAux ys ys.length (List.range ys.length) [0]

/-- The same interpolation loop with the zero-y-value skip removed; used to
state that the skip is a pure optimization. -/
def lagrangeAuxNoSkip (ys : List (ZMod p)) (n : ℕ) :
    List ℕ → List (ZMod p) → Option (List (ZMod p))
  | [], total => some total
  | i :: rest, total =>
    match zmodInv (lagrangeNumDen (p := p) n i).2 with
    | none => none
    | some dinv =>
      lagrangeAuxNoSkip ys n rest
        (polyAdd total (polyScale (polyScale (lagrangeNumDen (p := p) n i).1 dinv)
          (ys.getD i 0)))

/-- Interpolation without the zero-y skip (comparison definition for the
skip-is-pure-optimization part of the spec). -/
def lagrangeInterpolationNoSkip (ys : List (ZMod p)) : Option (List (ZMod p)) :=
  if ys = [] then some []
  else lagrangeAuxNoSkip ys ys.length (List.range ys.length) [0]

/-! ## R1CS (`r1cs.rs`) and QAP (`qap.rs`) -/

/-- `Constraint` (`r1cs.rs` lines 29–34): a gate `A·B = C` of linear
combinations; a linear combination is its term list
`[(variable index, coefficient), …]`. -/
structure Constraint (p : ℕ) where
  a : List (ℕ × ZMod p)
  b : List (ℕ × ZMod p)
  c : List (ℕ × ZMod p)
deriving DecidableEq

/-- `ConstraintSystem` (`r1cs.rs` lines 36–41). -/
structure ConstraintSystem (p : ℕ) where
  next_var_index : ℕ
  constraints : List (Constraint p)
  assignments : List (Option (ZMod p))

/-- `evaluate_lc` (`main.rs` lines 158–174): fold `Σ coeff · witness[var]`.
(The source indexes `witness[var]` and would panic out of range; theorems
about it carry the in-range hypothesis.) -/
def evaluate_lc (lc : List (ℕ × ZMod p)) (w : List (ZMod p)) : ZMod p :=
  lc.foldl (fun total t => total + t.2 * w.getD t.1 0) 0

/-- `is_satisfied` (`main.rs` lines 143–155): every constraint must satisfy
`A·B = C` under the witness. -/
def is_satisfied (cs : ConstraintSystem p) (w : List (ZMod p)) : Bool :=
  cs.constraints.all
    (fun con => evaluate_lc con.a w * evaluate_lc con.b w == evaluate_lc con.c w)

/-- The `'A' | 'B' | 'C'` selector of `extract_column` (`qap.rs` lines
100–105), as a three-valued type (the source's fourth arm is a panic on an
invalid selector character and is unreachable from `from_r1cs`). -/
inductive MatrixKind where
  | A
  | B
  | C
deriving DecidableEq

/-- Select the `A`, `B` or `C` linear combination of a constraint. -/
def matrixOf (con : Constraint p) : MatrixKind → List (ℕ × ZMod p)
  | MatrixKind.A => con.a
  | MatrixKind.B => con.b
  | MatrixKind.C => con.c

/-- `extract_column` (`qap.rs` lines 91–117): scan the constraints in order
and collect `(constraint index, coefficient)` for every term of the selected
linear combination whose variable equals `var_idx`. -/
def extract_column (cs : ConstraintSystem p) (var_idx : ℕ) (mk : MatrixKind) :
    List (ℕ × ZMod p) :=
  cs.constraints.enum.flatMap
    (fun ic => ((matrixOf ic.2 mk).filter (fun t => t.1 == var_idx)).map
      (fun t => (ic.1, t.2)))

/-- `to_dense_vector` (`qap.rs` lines 61–87): zero-fill a vector of length
`num_constraints` and write each sparse coefficient at its constraint index
(later writes overwrite earlier ones).  (The modulus-fetching
`cs.assignments` read of the source is type-level here.) -/
def to_dense_vector (sparse_points : List (ℕ × ZMod p)) (num_constraints : ℕ) :
    List (ZMod p) :=
  sparse_points.foldl
    (fun dense rv => if rv.1 < num_constraints then dense.set rv.1 rv.2 else dense)
    (List.replicate num_constraints 0)

/-- `Qap` (`qap.rs` lines 8–16): one interpolated polynomial per variable and
matrix. -/
structure Qap (p : ℕ) where
  a_polys : List (List (ZMod p))
  b_polys : List (List (ZMod p))
  c_polys : List (List (ZMod p))
deriving DecidableEq

/-- Column `i` of matrix `mk`, densified and interpolated (`qap.rs` lines
30–48). -/
def interpColumn (cs : ConstraintSystem p) (i : ℕ) (mk : MatrixKind) :
    Option (List (ZMod p)) :=
  lagrange_interpolation (to_dense_vector (extract_column cs i mk) cs.constraints.length)

/-- `Qap::from_r1cs` (`qap.rs` lines 20–56): interpolate every column of the
three matrices.  (The source interleaves the A/B/C columns per variable; only
the order in which panics would fire differs, not the result.) -/
def Qap.from_r1cs (cs : ConstraintSystem p) : Option (Qap p) := do
  let a ← (List.range cs.next_var_index).mapM (fun i => interpColumn cs i MatrixKind.A)
  let b ← (List.range cs.next_var_index).mapM (fun i => interpColumn cs i MatrixKind.B)
  let c ← (List.range cs.next_var_index).mapM (fun i => interpColumn cs i MatrixKind.C)
  pure ⟨a, b, c⟩

/-- Witness-weighted polynomial composition of the driver (`main.rs` lines
66–86): `Σ_i w_i · poly_i` by scale-and-accumulate starting from the empty
polynomial. -/
def composePoly (polys : List (List (ZMod p))) (w : List (ZMod p)) : List (ZMod p) :=
  w.enum.foldl (fun acc iw => polyAdd acc (polyScale (polys.getD iw.1 []) iw.2)) []

/-- The vanishing polynomial loop of the driver (`main.rs` lines 101–117):
`Z(x) = Π_{i<m} (x − i)`, built from the constant `1`. -/
def vanishing (m : ℕ) : List (ZMod p) :=
  (List.range m).foldl (fun z (i : ℕ) => polyMul z [0 - (i : ZMod p), 1]) [1]

/-- The satisfiability-protocol remainder of the driver (`main.rs` lines
63–139): build the QAP, compose `A(x), B(x), C(x)` from the witness, form
`P = A·B + (−1)·C`, and return the remainder of `P / Z`. -/
def protocolRemainder (cs : ConstraintSystem p) (w : List (ZMod p)) :
    Option (List (ZMod p)) :=
  (Qap.from_r1cs cs).bind (fun qap =>
    (polyDiv
      (polyAdd (polyMul (composePoly qap.a_polys w) (composePoly qap.b_polys w))
        (polyScale (composePoly qap.c_polys w) (0 - 1)))
      (vanishing cs.constraints.length)).map Prod.snd)

/-- The driver's validity check (`main.rs` lines 128–131): every remainder
coefficient is zero. -/
def isZeroPoly (r : List (ZMod p)) : Bool := r.all (fun c => c == 0)

/-! ## Bridge to Mathlib polynomials

`toPoly` reads a coefficient list as a `Polynomial (ZMod p)`; the lemmas below
show it commutes with every embedded operation, and that on canonical
(trimmed) lists it is injective away from the empty list. -/

/-- Interpret a coefficient list as a polynomial: `[a₀, a₁, …] ↦ Σ aᵢ xⁱ`.
This is the specification-side reading of the dense representation (it is not
part of the embedded code, hence not executable). -/
noncomputable def toPoly (c : List (ZMod p)) : Polynomial (ZMod p) :=
  c.foldr (fun a q => Polynomial.C a + Polynomial.X * q) 0

lemma toPoly_nil : toPoly ([] : List (ZMod p)) = 0 := rfl

lemma toPoly_cons (a : ZMod p) (t : List (ZMod p)) :
    toPoly (a :: t) = Polynomial.C a + Polynomial.X * toPoly t := rfl

lemma coeff_toPoly (c : List (ZMod p)) (n : ℕ) :
    (toPoly c).coeff n = c.getD n 0 := by
  induction c generalizing n with
  | nil => simp [toPoly_nil]
  | cons a t ih =>
    cases n with
    | zero => simp [toPoly_cons]
    | succ k => simp [toPoly_cons, Polynomial.coeff_X_mul, ih]

lemma toPoly_eq_of_getD (c d : List (ZMod p))
    (h : ∀ n, c.getD n 0 = d.getD n 0) : toPoly c = toPoly d := by
  apply Polynomial.ext
  intro n
  rw [coeff_toPoly, coeff_toPoly]
  exact h n

lemma dropZeros1_suffix (l : List (ZMod p)) :
    ∃ s, l = s ++ dropZeros1 l ∧ ∀ x ∈ s, x = 0 := by
  induction l with
  | nil => exact ⟨[], rfl, by simp⟩
  | cons a t ih =>
    cases t with
    | nil => exact ⟨[], rfl, by simp⟩
    | cons b u =>
      by_cases ha : a = 0
      · obtain ⟨s, hs, hz⟩ := ih
        refine ⟨a :: s, ?_, ?_⟩
        · simp [dropZeros1, ha, ← hs]
        · intro x hx
          rcases List.mem_cons.1 hx with h | h
          · exact h ▸ ha
          · exact hz x h
      · exact ⟨[], by simp [dropZeros1, ha], by simp⟩

lemma dropZeros1_ne_nil {l : List (ZMod p)} (h : l ≠ []) : dropZeros1 l ≠ [] := by
  induction l with
  | nil => exact absurd rfl h
  | cons a t ih =>
    cases t with
    | nil => simp [dropZeros1]
    | cons b u =>
      by_cases ha : a = 0
      · simpa [dropZeros1, ha] using ih (by simp)
      · simp [dropZeros1, ha]

lemma dropZeros1_idem (l : List (ZMod p)) :
    dropZeros1 (dropZeros1 l) = dropZeros1 l := by
  induction l with
  | nil => rfl
  | cons a t ih =>
    cases t with
    | nil => rfl
    | cons b u =>
      by_cases ha : a = 0
      · simpa [dropZeros1, ha] using ih
      · simp [dropZeros1, ha]

lemma polyNew_prefix (c : List (ZMod p)) :
    ∃ t, c = polyNew c ++ t ∧ ∀ x ∈ t, x = 0 := by
  obtain ⟨s, hs, hz⟩ := dropZeros1_suffix c.reverse
  refine ⟨s.reverse, ?_, ?_⟩
  · have := congrArg List.reverse hs
    simpa [polyNew] using this
  · intro x hx
    exact hz x (List.mem_reverse.1 hx)

lemma length_polyNew_le (c : List (ZMod p)) : (polyNew c).length ≤ c.length := by
  obtain ⟨t, hs, _⟩ := polyNew_prefix c
  have h := congrArg List.length hs
  simp only [List.length_append] at h
  omega

lemma polyNew_ne_nil {c : List (ZMod p)} (h : c ≠ []) : polyNew c ≠ [] := by
  intro hc
  have h1 : dropZeros1 c.reverse ≠ [] :=
    dropZeros1_ne_nil (by simpa using h)
  have h2 : (dropZeros1 c.reverse).reverse = [] := hc
  simp at h2
  exact h1 h2

lemma polyNew_idem (c : List (ZMod p)) : polyNew (polyNew c) = polyNew c := by
  unfold polyNew
  rw [List.reverse_reverse, dropZeros1_idem]

lemma getD_polyNew (c : List (ZMod p)) (n : ℕ) :
    (polyNew c).getD n 0 = c.getD n 0 := by
  obtain ⟨t, hs, hz⟩ := polyNew_prefix c
  by_cases h : n < (polyNew c).length
  · conv_rhs => rw [hs]
    rw [List.getD_append _ _ _ _ h]
  · push_neg at h
    rw [List.getD_eq_default _ _ h]
    conv_rhs => rw [hs]
    by_cases h2 : n < (polyNew c).length + t.length
    · rw [List.getD_eq_getElem?_getD, List.getElem?_append_right h,
        List.getElem?_eq_getElem (by simpa using Nat.sub_lt_left_of_lt_add h h2)]
      have hb : n - (polyNew c).length < t.length := Nat.sub_lt_left_of_lt_add h h2
      have := hz t[n - (polyNew c).length] (List.getElem_mem _)
      simp [this]
    · push_neg at h2
      rw [List.getD_eq_default]
      simpa using h2

lemma toPoly_polyNew (c : List (ZMod p)) : toPoly (polyNew c) = toPoly c :=
  toPoly_eq_of_getD _ _ (getD_polyNew c)

lemma polyNew_append_last {x : ZMod p} (l : List (ZMod p)) (hx : x ≠ 0) :
    polyNew (l ++ [x]) = l ++ [x] := by
  have hrev : (l ++ [x]).reverse = x :: l.reverse := by simp
  have hd : dropZeros1 (x :: l.reverse) = x :: l.reverse := by
    cases l.reverse with
    | nil => simp [dropZeros1]
    | cons b u => simp [dropZeros1, hx]
  unfold polyNew
  rw [hrev, hd]
  simp

lemma dropZeros1_replicate_zero : ∀ {k : ℕ}, 1 ≤ k →
    dropZeros1 (List.replicate k (0 : ZMod p)) = [0]
  | 1, _ => rfl
  | k + 2, _ => by
    have : List.replicate (k + 2) (0 : ZMod p)
        = 0 :: List.replicate (k + 1) (0 : ZMod p) := by
      simp [List.replicate_succ]
    rw [this, List.replicate_succ]
    show dropZeros1 (0 :: 0 :: List.replicate k (0 : ZMod p)) = [0]
    rw [show dropZeros1 (0 :: 0 :: List.replicate k (0 : ZMod p))
        = dropZeros1 (0 :: List.replicate k (0 : ZMod p)) by simp [dropZeros1]]
    rw [← List.replicate_succ]
    exact dropZeros1_replicate_zero (by omega)

lemma polyNew_replicate_zero {k : ℕ} (hk : 1 ≤ k) :
    polyNew (List.replicate k (0 : ZMod p)) = [0] := by
  unfold polyNew
  rw [List.reverse_replicate, dropZeros1_replicate_zero hk]
  rfl

lemma getLast_eq_getD {c : List (ZMod p)} (h : c ≠ []) :
    c.getLast?.getD 0 = c.getD (c.length - 1) 0 := by
  rw [List.getLast?_eq_getElem?, List.getD_eq_getElem?_getD]

lemma canon_last_ne_zero {c : List (ZMod p)} (hc : polyNew c = c)
    (h2 : 2 ≤ c.length) : c.getLast?.getD 0 ≠ 0 := by
  intro hz
  rcases List.eq_nil_or_concat c with rfl | ⟨l, x, rfl⟩
  · simp at h2
  · simp only [List.concat_eq_append] at hc h2 hz
    have hx : x = 0 := by simpa [List.getLast?_append] using hz
    subst hx
    have hlrev : (l ++ [(0 : ZMod p)]).reverse = 0 :: l.reverse := by simp
    have hlen : l.reverse.length ≥ 1 := by
      have := h2
      simp only [List.length_append, List.length_singleton] at this
      simp only [List.length_reverse]
      omega
    obtain ⟨b, u, hbu⟩ : ∃ b u, l.reverse = b :: u := by
      cases h : l.reverse with
      | nil => rw [h] at hlen; simp at hlen
      | cons b u => exact ⟨b, u, rfl⟩
    have hdrop : dropZeros1 ((l ++ [(0 : ZMod p)]).reverse)
        = dropZeros1 l.reverse := by
      rw [hlrev, hbu]
      simp [dropZeros1]
    have hlen2 : (polyNew (l ++ [(0 : ZMod p)])).length ≤ l.length := by
      unfold polyNew
      rw [hdrop]
      have h1 : (dropZeros1 l.reverse).length ≤ l.reverse.length := by
        obtain ⟨s, hs, _⟩ := dropZeros1_suffix l.reverse
        have := congrArg List.length hs
        simp only [List.length_append] at this
        omega
      simpa using h1
    rw [hc] at hlen2
    simp only [List.length_append, List.length_singleton] at hlen2
    omega

lemma natDegree_toPoly_le (c : List (ZMod p)) :
    (toPoly c).natDegree ≤ c.length - 1 := by
  rw [Polynomial.natDegree_le_iff_coeff_eq_zero]
  intro n hn
  rw [coeff_toPoly]
  apply List.getD_eq_default
  omega

lemma canon_length {c : List (ZMod p)} (hc : polyNew c = c) (h0 : c ≠ [])
    (hz : toPoly c ≠ 0) : c.length = (toPoly c).natDegree + 1 := by
  have hlen1 : 1 ≤ c.length := List.length_pos.2 h0
  rcases Nat.lt_or_ge c.length 2 with h | h
  · have : c.length = 1 := by omega
    rw [this]
    obtain ⟨a, rfl⟩ : ∃ a, c = [a] := by
      cases c with
      | nil => simp at this
      | cons x t =>
        cases t with
        | nil => exact ⟨x, rfl⟩
        | cons y u => simp at this
    have ha : a ≠ 0 := by
      intro h0'
      apply hz
      rw [h0']
      simp [toPoly_cons, toPoly_nil]
    have : (toPoly [a]).natDegree = 0 := by
      simp [toPoly_cons, toPoly_nil]
    omega
  · have hlast := canon_last_ne_zero hc h
    have hco : (toPoly c).coeff (c.length - 1) ≠ 0 := by
      rw [coeff_toPoly, ← getLast_eq_getD h0]
      exact hlast
    have h1 : c.length - 1 ≤ (toPoly c).natDegree :=
      Polynomial.le_natDegree_of_ne_zero hco
    have h2 := natDegree_toPoly_le c
    omega

lemma canon_of_toPoly_zero {c : List (ZMod p)} (hc : polyNew c = c)
    (hz : toPoly c = 0) : c = [] ∨ c = [0] := by
  rcases Nat.lt_or_ge c.length 2 with h | h
  · cases c with
    | nil => exact Or.inl rfl
    | cons a t =>
      cases t with
      | nil =>
        right
        have : a = (0 : ZMod p) := by
          have := congrArg (fun q => Polynomial.coeff q 0) hz
          simpa [coeff_toPoly] using this
        rw [this]
      | cons b u => simp at h; omega
  · exfalso
    have hlast := canon_last_ne_zero hc h
    apply hlast
    have h0 : c ≠ [] := by intro h'; rw [h'] at h; simp at h
    rw [getLast_eq_getD h0, ← coeff_toPoly, hz]
    simp

lemma toPoly_inj {c d : List (ZMod p)} (hc : polyNew c = c) (hd : polyNew d = d)
    (h0c : c ≠ []) (h0d : d ≠ []) (h : toPoly c = toPoly d) : c = d := by
  by_cases hz : toPoly c = 0
  · have hz' : toPoly d = 0 := by rw [← h]; exact hz
    rcases canon_of_toPoly_zero hc hz with rfl | rfl
    · exact absurd rfl h0c
    · rcases canon_of_toPoly_zero hd hz' with rfl | rfl
      · exact absurd rfl h0d
      · rfl
  · have hz' : toPoly d ≠ 0 := by rw [← h]; exact hz
    have hl : c.length = d.length := by
      rw [canon_length hc h0c hz, canon_length hd h0d hz', h]
    apply List.ext_getElem hl
    intro i h1 h2
    have := congrArg (fun q => Polynomial.coeff q i) h
    simp only [coeff_toPoly] at this
    rwa [List.getD_eq_getElem?_getD, List.getD_eq_getElem?_getD,
      List.getElem?_eq_getElem h1, List.getElem?_eq_getElem h2] at this

lemma getD_map_range_add (a b : List (ZMod p)) (n : ℕ) :
    (((List.range (max a.length b.length)).map
      (fun i => a.getD i 0 + b.getD i 0)).getD n 0)
      = a.getD n 0 + b.getD n 0 := by
  by_cases h : n < max a.length b.length
  · rw [List.getD_eq_getElem?_getD, List.getElem?_map, List.getElem?_range h]
    rfl
  · push_neg at h
    rw [List.getD_eq_default _ _ (by simpa using h),
      List.getD_eq_default a _ (by omega), List.getD_eq_default b _ (by omega),
      add_zero]

lemma toPoly_polyAdd (a b : List (ZMod p)) :
    toPoly (polyAdd a b) = toPoly a + toPoly b := by
  rw [polyAdd, toPoly_polyNew]
  apply Polynomial.ext
  intro n
  rw [coeff_toPoly, Polynomial.coeff_add, coeff_toPoly, coeff_toPoly]
  exact getD_map_range_add a b n

lemma toPoly_polyScale (a : List (ZMod p)) (k : ZMod p) :
    toPoly (polyScale a k) = toPoly a * Polynomial.C k := by
  rw [polyScale, toPoly_polyNew]
  induction a with
  | nil => simp [toPoly_nil]
  | cons x xs ih =>
    simp only [List.map_cons, toPoly_cons, ih]
    rw [Polynomial.C_mul]
    ring

lemma length_polyAdd_le (a b : List (ZMod p)) :
    (polyAdd a b).length ≤ max a.length b.length := by
  rw [polyAdd]
  calc (polyNew _).length ≤ _ := length_polyNew_le _
  _ = max a.length b.length := by simp

lemma polyAdd_ne_nil {a : List (ZMod p)} (b : List (ZMod p)) (h : a ≠ []) :
    polyAdd a b ≠ [] := by
  apply polyNew_ne_nil
  intro hz
  have := congrArg List.length hz
  simp only [List.length_map, List.length_range, List.length_nil] at this
  have ha : a.length = 0 := by omega
  exact h (List.length_eq_zero.1 ha)

lemma polyScale_ne_nil {a : List (ZMod p)} (k : ZMod p) (h : a ≠ []) :
    polyScale a k ≠ [] := by
  apply polyNew_ne_nil
  simpa using h

lemma length_polyScale_le (a : List (ZMod p)) (k : ZMod p) :
    (polyScale a k).length ≤ a.length := by
  rw [polyScale]
  calc (polyNew _).length ≤ (a.map (fun c => c * k)).length := length_polyNew_le _
  _ = a.length := by simp

lemma getD_map_range (f : ℕ → ZMod p) (m n : ℕ) :
    (((List.range m).map f).getD n 0) = if n < m then f n else 0 := by
  by_cases h : n < m
  · rw [List.getD_eq_getElem?_getD, List.getElem?_map, List.getElem?_range h]
    simp [h]
  · rw [List.getD_eq_default]
    · simp [h]
    · simpa using Nat.le_of_not_lt h

lemma list_sum_map_range (f : ℕ → ZMod p) (n : ℕ) :
    ((List.range n).map f).sum = ∑ i ∈ Finset.range n, f i := by
  induction n with
  | zero => simp
  | succ k ih => rw [List.range_succ, Finset.sum_range_succ]; simp [ih]

lemma coeff_toPoly_mul (a b : List (ZMod p)) (n : ℕ) :
    (toPoly a * toPoly b).coeff n = convCoeff a b n := by
  rw [Polynomial.coeff_mul, Finset.Nat.sum_antidiagonal_eq_sum_range_succ_mk]
  unfold convCoeff
  rw [list_sum_map_range]
  exact Finset.sum_congr rfl (fun i _ => by rw [coeff_toPoly, coeff_toPoly])

lemma convCoeff_eq_zero_of_ge (a b : List (ZMod p)) (n : ℕ)
    (h : a.length + b.length - 1 ≤ n) : convCoeff a b n = 0 := by
  unfold convCoeff
  apply List.sum_eq_zero
  intro x hx
  simp only [List.mem_map, List.mem_range] at hx
  obtain ⟨i, hi, rfl⟩ := hx
  by_cases ha : i < a.length
  · have : b.length ≤ n - i := by omega
    rw [List.getD_eq_default _ _ this, mul_zero]
  · push_neg at ha
    rw [List.getD_eq_default _ _ ha, zero_mul]

lemma toPoly_polyMul (a b : List (ZMod p)) :
    toPoly (polyMul a b) = toPoly a * toPoly b := by
  rw [polyMul, toPoly_polyNew]
  apply Polynomial.ext
  intro n
  rw [coeff_toPoly, coeff_toPoly_mul, getD_map_range]
  by_cases h : n < a.length + b.length - 1
  · simp [h]
  · push_neg at h
    simp only [if_neg (not_lt.2 h)]
    exact (convCoeff_eq_zero_of_ge a b n h).symm

lemma length_polyMul_le (a b : List (ZMod p)) :
    (polyMul a b).length ≤ a.length + b.length - 1 := by
  rw [polyMul]
  calc (polyNew _).length ≤ _ := length_polyNew_le _
  _ = a.length + b.length - 1 := by simp

lemma polyEval_eq (c : List (ZMod p)) (x : ZMod p) :
    polyEval c x = (toPoly c).eval x := by
  induction c with
  | nil => simp [polyEval, toPoly_nil]
  | cons a t ih =>
    unfold polyEval
    rw [List.reverse_cons, List.foldl_append]
    unfold polyEval at ih
    rw [List.foldl_cons, List.foldl_nil, ih, toPoly_cons]
    simp only [Polynomial.eval_add, Polynomial.eval_mul, Polynomial.eval_C,
      Polynomial.eval_X]
    ring

lemma isZeroPoly_iff (r : List (ZMod p)) :
    isZeroPoly r = true ↔ toPoly r = 0 := by
  unfold isZeroPoly
  rw [List.all_eq_true]
  constructor
  · intro h
    apply Polynomial.ext
    intro n
    rw [coeff_toPoly]
    simp only [Polynomial.coeff_zero]
    by_cases hn : n < r.length
    · have hm : r.getD n 0 ∈ r := by
        rw [List.getD_eq_getElem?_getD, List.getElem?_eq_getElem hn]
        exact List.getElem_mem _
      have := h _ hm
      simpa using this
    · push_neg at hn
      exact List.getD_eq_default _ _ hn
  · intro h x hx
    obtain ⟨n, hn, rfl⟩ := List.getElem_of_mem hx
    have := congrArg (fun q => Polynomial.coeff q n) h
    simp only [coeff_toPoly, Polynomial.coeff_zero] at this
    rw [List.getD_eq_getElem?_getD, List.getElem?_eq_getElem hn] at this
    simpa using this

/-! ## Facts about `zmodInv` and the long-division loop -/

lemma zmodInv_mul {a b : ZMod p} (h : zmodInv a = some b) : a * b = 1 := by
  unfold zmodInv at h
  rcases Option.map_eq_some'.1 h with ⟨x, hx, rfl⟩
  have := List.find?_some hx
  simpa using this

lemma zmodInv_some_of_isUnit [NeZero p] {a : ZMod p} (h : IsUnit a) :
    ∃ b, zmodInv a = some b ∧ a * b = 1 := by
  obtain ⟨u, rfl⟩ := h
  have hval : ((u⁻¹ : (ZMod p)ˣ) : ZMod p).val < p := ZMod.val_lt _
  have hmem : ((u⁻¹ : (ZMod p)ˣ) : ZMod p).val ∈ List.range p :=
    List.mem_range.2 hval
  have hpred : ((u : ZMod p) *
      ((((u⁻¹ : (ZMod p)ˣ) : ZMod p).val : ℕ) : ZMod p) == 1) = true := by
    rw [beq_iff_eq, ZMod.natCast_rightInverse _]
    exact u.mul_inv
  have hsome : ((List.range p).find?
      (fun x : ℕ => ((u : ZMod p) * (x : ZMod p) == 1))).isSome := by
    rw [List.find?_isSome]
    exact ⟨((u⁻¹ : (ZMod p)ˣ) : ZMod p).val, hmem, hpred⟩
  obtain ⟨x, hx⟩ := Option.isSome_iff_exists.1 hsome
  have hpx := List.find?_some hx
  refine ⟨(x : ZMod p), ?_, by simpa using hpx⟩
  unfold zmodInv
  rw [hx]
  rfl

lemma zmodInv_prime_some [Fact p.Prime] {a : ZMod p} (ha : a ≠ 0) :
    ∃ b, zmodInv a = some b ∧ a * b = 1 := by
  haveI : NeZero p := ⟨(Fact.out : p.Prime).ne_zero⟩
  exact zmodInv_some_of_isUnit (isUnit_iff_ne_zero.mpr ha)

lemma divLoop_const_none {d : List (ZMod p)} (hd : d.length = 1) :
    ∀ fuel (q r : List (ZMod p)), r ≠ [] → divLoop d fuel q r = none := by
  intro fuel
  induction fuel with
  | zero => intro q r _; rfl
  | succ fuel ih =>
    intro q r hr0
    have hguard : d.length ≤ r.length := by
      rw [hd]
      exact List.length_pos.2 hr0
    simp only [divLoop, if_pos hguard, if_neg hr0]
    cases hinv : zmodInv (d.getLast?.getD 0) with
    | none => rfl
    | some ldinv =>
      exact ih _ _ (polyNew_ne_nil (polyAdd_ne_nil _ hr0))

lemma toPoly_replicate_zero_append (k : ℕ) (x : ZMod p) :
    toPoly (List.replicate k 0 ++ [x]) = Polynomial.C x * Polynomial.X ^ k := by
  induction k with
  | zero => simp [toPoly_cons, toPoly_nil]
  | succ j ih =>
    rw [List.replicate_succ, List.cons_append, toPoly_cons, ih]
    rw [map_zero]
    ring

lemma canon_leading {c : List (ZMod p)} (hc : polyNew c = c) (h2 : 2 ≤ c.length) :
    toPoly c ≠ 0 ∧ (toPoly c).natDegree = c.length - 1 ∧
    (toPoly c).leadingCoeff = c.getLast?.getD 0 := by
  have h0 : c ≠ [] := by intro h; rw [h] at h2; simp at h2
  have hlast := canon_last_ne_zero hc h2
  have hco : (toPoly c).coeff (c.length - 1) ≠ 0 := by
    rw [coeff_toPoly, ← getLast_eq_getD h0]
    exact hlast
  have hz : toPoly c ≠ 0 := by
    intro h
    apply hco
    rw [h]
    simp
  have hdeg : (toPoly c).natDegree = c.length - 1 := by
    have := canon_length hc h0 hz
    omega
  refine ⟨hz, hdeg, ?_⟩
  rw [Polynomial.leadingCoeff, hdeg, coeff_toPoly, ← getLast_eq_getD h0]

lemma divLoop_spec [hp : Fact p.Prime] {d : List (ZMod p)} (hd : polyNew d = d)
    (hd2 : 2 ≤ d.length) :
    ∀ fuel (r q : List (ZMod p)), polyNew r = r → r ≠ [] → r.length ≤ fuel →
    ∃ q' r', divLoop d fuel q r = some (q', r') ∧
      toPoly q' * toPoly d + toPoly r' = toPoly q * toPoly d + toPoly r ∧
      polyNew q' = q' ∧ polyNew r' = r' ∧ r' ≠ [] ∧ r'.length < d.length := by
  intro fuel
  induction fuel with
  | zero =>
    intro r q _ hr0 hlen
    have := List.length_pos.2 hr0
    omega
  | succ fuel ih =>
    intro r q hr hr0 hlen
    by_cases hguard : d.length ≤ r.length
    · -- loop body runs
      have hr2 : 2 ≤ r.length := le_trans hd2 hguard
      have hleadD : d.getLast?.getD 0 ≠ 0 := canon_last_ne_zero hd hd2
      have hleadR : r.getLast?.getD 0 ≠ 0 := canon_last_ne_zero hr hr2
      obtain ⟨ldinv, hinv, hinvmul⟩ := zmodInv_prime_some hleadD
      set leadD := d.getLast?.getD 0 with hLD
      set leadR := r.getLast?.getD 0 with hLR
      have hldinv : ldinv ≠ 0 := by
        intro h
        rw [h, mul_zero] at hinvmul
        exact one_ne_zero hinvmul.symm
      have hfac : leadR * ldinv ≠ 0 := mul_ne_zero hleadR hldinv
      set diff := polyDegree r - polyDegree d with hdiff
      set term := polyNew (List.replicate diff 0 ++ [leadR * ldinv]) with hterm
      have hterm_eq : term = List.replicate diff 0 ++ [leadR * ldinv] :=
        polyNew_append_last _ hfac
      have hterm_toPoly : toPoly term
          = Polynomial.C (leadR * ldinv) * Polynomial.X ^ diff := by
        rw [hterm_eq]
        exact toPoly_replicate_zero_append _ _
      set q1 := polyAdd q term with hq1
      set r1 := polyTrim (polyAdd r (polyScale (polyMul term d) (0 - 1))) with hr1
      have hr1_toPoly : toPoly r1 = toPoly r
          - Polynomial.C (leadR * ldinv) * Polynomial.X ^ diff * toPoly d := by
        rw [hr1, polyTrim, toPoly_polyNew, toPoly_polyAdd, toPoly_polyScale,
          toPoly_polyMul, hterm_toPoly]
        have : Polynomial.C ((0 : ZMod p) - 1) = -1 := by
          rw [map_sub, map_zero, map_one]
          ring
        rw [this]
        ring
      have hr1_canon : polyNew r1 = r1 := by rw [hr1, polyTrim, polyNew_idem]
      have hr1_ne : r1 ≠ [] := polyNew_ne_nil (polyAdd_ne_nil _ hr0)
      -- the leading terms cancel, so the remainder list shrinks
      obtain ⟨hTne, hTdeg, hTlead⟩ := canon_leading hr hr2
      obtain ⟨hDne, hDdeg, hDlead⟩ := canon_leading hd hd2
      have hCX_ne : Polynomial.C (leadR * ldinv) * Polynomial.X ^ diff
          ≠ (0 : Polynomial (ZMod p)) := by
        apply mul_ne_zero
        · simpa using hfac
        · exact pow_ne_zero _ Polynomial.X_ne_zero
      have hS_deg : (Polynomial.C (leadR * ldinv) * Polynomial.X ^ diff
          * toPoly d).natDegree = r.length - 1 := by
        rw [Polynomial.natDegree_mul hCX_ne hDne,
          Polynomial.natDegree_C_mul_X_pow _ _ hfac, hDdeg]
        rw [hdiff]
        unfold polyDegree
        omega
      have hS_ne : Polynomial.C (leadR * ldinv) * Polynomial.X ^ diff
          * toPoly d ≠ 0 := mul_ne_zero hCX_ne hDne
      have hS_lead : (Polynomial.C (leadR * ldinv) * Polynomial.X ^ diff
          * toPoly d).leadingCoeff = leadR := by
        rw [Polynomial.leadingCoeff_mul, Polynomial.leadingCoeff_mul, hDlead,
          Polynomial.leadingCoeff_C, Polynomial.leadingCoeff_X_pow]
        rw [mul_one, mul_assoc, mul_comm ldinv, hinvmul, mul_one]
      have hsub_lt : (toPoly r - Polynomial.C (leadR * ldinv) * Polynomial.X ^ diff
          * toPoly d).degree < (toPoly r).degree := by
        apply Polynomial.degree_sub_lt _ hTne
        · rw [hTlead, hS_lead]
        · rw [Polynomial.degree_eq_natDegree hTne,
            Polynomial.degree_eq_natDegree hS_ne, hTdeg, hS_deg]
      have hr1_len : r1.length < r.length := by
        by_cases hz1 : toPoly r1 = 0
        · rcases canon_of_toPoly_zero hr1_canon hz1 with h | h
          · exact absurd h hr1_ne
          · rw [h]
            simpa using hr2
        · have hlt : (toPoly r1).natDegree < (toPoly r).natDegree := by
            apply Polynomial.natDegree_lt_natDegree hz1
            rw [hr1_toPoly]
            exact hsub_lt
          have := canon_length hr1_canon hr1_ne hz1
          omega
      obtain ⟨q', r', hrun, hid, hq'c, hr'c, hr'ne, hr'len⟩ :=
        ih r1 q1 hr1_canon hr1_ne (by omega)
      refine ⟨q', r', ?_, ?_, hq'c, hr'c, hr'ne, hr'len⟩
      · simp only [divLoop, if_pos hguard, if_neg hr0, hinv]
        exact hrun
      · rw [hid, hq1, toPoly_polyAdd, hterm_toPoly, hr1_toPoly]
        ring
    · -- exit: remainder shorter than divisor
      push_neg at hguard
      have htrim_r : polyTrim r = r := hr
      refine ⟨polyTrim q, r, ?_, ?_, ?_, hr, hr0, hguard⟩
      · simp only [divLoop, if_neg (not_le.2 hguard)]
        rw [htrim_r]
      · rw [polyTrim, toPoly_polyNew]
      · rw [polyTrim, polyNew_idem]

lemma polyAdd_ne_nil_right (a : List (ZMod p)) {b : List (ZMod p)} (h : b ≠ []) :
    polyAdd a b ≠ [] := by
  apply polyNew_ne_nil
  intro hz
  have := congrArg List.length hz
  simp only [List.length_map, List.length_range, List.length_nil] at this
  have hb : b.length = 0 := by omega
  exact h (List.length_eq_zero.1 hb)

lemma polyDiv_some [Fact p.Prime] {dividend divisor : List (ZMod p)}
    (hdvd_c : polyNew dividend = dividend) (hdvd0 : dividend ≠ [])
    (hds_c : polyNew divisor = divisor) (hds2 : 2 ≤ divisor.length) :
    ∃ q r, polyDiv dividend divisor = some (q, r) ∧
      toPoly q * toPoly divisor + toPoly r = toPoly dividend ∧
      polyNew q = q ∧ polyNew r = r ∧ r ≠ [] ∧ r.length < divisor.length := by
  have hdvd1 : 1 ≤ dividend.length := List.length_pos.2 hdvd0
  obtain ⟨q, r, hrun, hid, hqc, hrc, hrne, hrlen⟩ :=
    divLoop_spec hds_c hds2 (dividend.length + 1) dividend
      (polyNew (List.replicate dividend.length 0)) hdvd_c hdvd0 (by omega)
  refine ⟨q, r, ?_, ?_, hqc, hrc, hrne, hrlen⟩
  · unfold polyDiv polyDivFuel
    simp only [polyTrim, hdvd_c, hds_c]
    rw [if_neg hdvd0]
    · rw [if_neg (by intro hz; rw [hz] at hds2; simp at hds2)]
      exact hrun
  · rw [hid, polyNew_replicate_zero hdvd1]
    have : toPoly [(0 : ZMod p)] = 0 := by simp [toPoly_cons, toPoly_nil]
    rw [this, zero_mul, zero_add]

/-- C3: for every canonical dividend and every canonical nonzero divisor over
a prime modulus, any pair `(quotient, remainder)` that `Polynomial::div`
returns satisfies `quotient·divisor + remainder == dividend` exactly and
`degree(remainder) < degree(divisor)`; and when `degree(dividend) <
degree(divisor)` it returns the zero quotient and the dividend unchanged. -/
theorem div_round_trip {p : ℕ} [Fact p.Prime] (dividend divisor : List (ZMod p))
    (hdvd : polyNew dividend = dividend) (hdvd0 : dividend ≠ [])
    (hds : polyNew divisor = divisor) (hds0 : divisor ≠ [])
    (hdsnz : divisor ≠ [0]) :
    (∀ q r, polyDiv dividend divisor = some (q, r) →
      polyAdd (polyMul q divisor) r = dividend ∧
      polyDegree r < polyDegree divisor) ∧
    (polyDegree dividend < polyDegree divisor →
      polyDiv dividend divisor = some ([0], dividend)) := by
  have hds1 : 1 ≤ divisor.length := List.length_pos.2 hds0
  constructor
  · intro q r hqr
    rcases Nat.lt_or_ge divisor.length 2 with hlen1 | hlen2
    · -- constant divisor: the loop never returns, contradicting `hqr`
      exfalso
      have hlen : divisor.length = 1 := by omega
      have : polyDiv dividend divisor = none := by
        unfold polyDiv polyDivFuel
        simp only [polyTrim, hdvd, hds]
        rw [if_neg hds0, if_neg hdvd0]
        exact divLoop_const_none hlen _ _ _ hdvd0
      rw [this] at hqr
      exact Option.noConfusion hqr
    · obtain ⟨q', r', hrun, hid, hqc, hrc, hrne, hrlen⟩ :=
        polyDiv_some hdvd hdvd0 hds hlen2
      rw [hrun] at hqr
      obtain ⟨rfl, rfl⟩ : q' = q ∧ r' = r := by
        have := Option.some.inj hqr
        exact ⟨congrArg Prod.fst this, congrArg Prod.snd this⟩
      constructor
      · apply toPoly_inj
        · rw [polyAdd, polyNew_idem]
        · exact hdvd
        · exact polyAdd_ne_nil_right _ hrne
        · exact hdvd0
        · rw [toPoly_polyAdd, toPoly_polyMul]
          exact hid
      · unfold polyDegree
        omega
  · intro hdeg
    have hlenlt : dividend.length < divisor.length := by
      unfold polyDegree at hdeg
      have := List.length_pos.2 hdvd0
      omega
    unfold polyDiv polyDivFuel
    simp only [polyTrim, hdvd, hds]
    rw [if_neg hds0, if_neg hdvd0]
    show divLoop divisor (dividend.length + 1) _ _ = _
    simp only [divLoop, if_neg (by omega : ¬divisor.length ≤ dividend.length)]
    rw [polyTrim, polyNew_replicate_zero (List.length_pos.2 hdvd0), polyTrim, hdvd]
    rfl

/-- Witness for `div_round_trip`: dividing `x² + 1` by `x` over `𝔽₁₇`. -/
theorem div_round_trip_witness :
    (∀ q r, polyDiv (p := 17) [1, 0, 1] [0, 1] = some (q, r) →
      polyAdd (polyMul q [0, 1]) r = [1, 0, 1] ∧
      polyDegree r < polyDegree ([0, 1] : List (ZMod 17))) ∧
    (polyDegree ([1, 0, 1] : List (ZMod 17)) < polyDegree ([0, 1] : List (ZMod 17)) →
      polyDiv (p := 17) [1, 0, 1] [0, 1] = some ([0], [1, 0, 1])) :=
  @div_round_trip 17 ⟨by norm_num⟩ [1, 0, 1] [0, 1]
    (by decide) (by decide) (by decide) (by decide) (by decide)

/-- C4 fails on the code: dividing `x² + 1` by `x` over `𝔽₁₇`, the
quotient-and-remainder method `div` returns remainder `1`, while `div_rem` —
whose subtraction step uses the broken `Sub` impl — returns remainder `0`,
so the two long-division routines do not produce equal results. -/
theorem div_vs_div_rem_counterexample :
    polyDiv (p := 17) [1, 0, 1] [0, 1] = some ([0, 1], [1]) ∧
    polyDivRem (p := 17) [1, 0, 1] [0, 1] = some ([0, 1], [0]) ∧
    ([1] : List (ZMod 17)) ≠ [0] := by
  refine ⟨by decide, by decide, by decide⟩

/-- C5 fails on the code: the `Sub` impl reads its left operand twice, so
`p − q` is the zero polynomial `[0]` for every nonempty `p` and every `q`. -/
theorem sub_always_zero {p : ℕ} (a b : List (ZMod p)) (h : a ≠ []) :
    polySub a b = [0] := by
  have hlen : 1 ≤ max a.length b.length :=
    le_max_of_le_left (List.length_pos.2 h)
  unfold polySub
  have hz : (List.range (max a.length b.length)).map
      (fun i => a.getD i 0 - a.getD i 0)
      = List.replicate (max a.length b.length) (0 : ZMod p) := by
    rw [List.eq_replicate_iff]
    constructor
    · simp
    · intro x hx
      simp only [List.mem_map] at hx
      obtain ⟨i, _, rfl⟩ := hx
      exact sub_self _
  rw [hz, polyNew_replicate_zero hlen]

/-- Witness for `sub_always_zero`: `0 − 1` over `𝔽₁₇` comes out as the zero
polynomial instead of `[16]`. -/
theorem sub_always_zero_witness : polySub (p := 17) [0] [1] = [0] :=
  sub_always_zero [0] [1] (by decide)

/-- C6 fails on the code: `Polynomial::div`'s loop guard compares only the
coefficient-list lengths and never tests for the zero remainder, so dividing
any nonzero dividend by a polynomial that trims to a single coefficient (a
constant divisor — nonzero or not) never returns, at any fuel. -/
theorem div_constant_divisor_diverges {p : ℕ} (dividend divisor : List (ZMod p))
    (h0 : polyTrim dividend ≠ []) (h1 : (polyTrim divisor).length = 1) :
    ∀ fuel, polyDivFuel fuel dividend divisor = none := by
  intro fuel
  unfold polyDivFuel
  rw [if_neg (by intro hz; rw [hz] at h1; simp at h1), if_neg h0]
  exact divLoop_const_none h1 _ _ _ h0

/-- Witness for `div_constant_divisor_diverges`: `1 / 1` over `𝔽₁₇` does not
return within 100 iterations (nor any other number). -/
theorem div_constant_divisor_diverges_witness :
    polyDivFuel (p := 17) 100 [1] [1] = none :=
  div_constant_divisor_diverges [1] [1] (by decide) (by decide) 100

/-! ## Lagrange interpolation: correctness under `n ≤ p` -/

lemma polyMul_ne_nil {a b : List (ZMod p)} (ha : a ≠ []) (hb : b ≠ []) :
    polyMul a b ≠ [] := by
  apply polyNew_ne_nil
  intro hz
  have := congrArg List.length hz
  simp only [List.length_map, List.length_range, List.length_nil] at this
  have ha' := List.length_pos.2 ha
  have hb' := List.length_pos.2 hb
  omega

lemma toPoly_linear (j : ZMod p) :
    toPoly [0 - j, 1] = Polynomial.X - Polynomial.C j := by
  rw [toPoly_cons, toPoly_cons, toPoly_nil]
  rw [map_sub, map_zero, map_one]
  ring

lemma natCast_zmod_inj {i j : ℕ} (hi : i < p) (hj : j < p)
    (h : (i : ZMod p) = (j : ZMod p)) : i = j := by
  have := congrArg ZMod.val h
  rwa [ZMod.val_cast_of_lt hi, ZMod.val_cast_of_lt hj] at this

lemma lagrangeNumDen_foldl (i : ℕ) (js : List ℕ) (nd : List (ZMod p) × ZMod p)
    (h1 : nd.1 ≠ []) :
    toPoly (js.foldl (fun nd j => if i = j then nd else
        (polyMul nd.1 [0 - (j : ZMod p), 1],
         nd.2 * ((i : ZMod p) - (j : ZMod p)))) nd).1
      = toPoly nd.1 * ((js.filter (fun j => j != i)).map
        (fun j : ℕ => Polynomial.X - Polynomial.C (j : ZMod p))).prod
    ∧ (js.foldl (fun nd j => if i = j then nd else
        (polyMul nd.1 [0 - (j : ZMod p), 1],
         nd.2 * ((i : ZMod p) - (j : ZMod p)))) nd).2
      = nd.2 * ((js.filter (fun j => j != i)).map
        (fun j : ℕ => (i : ZMod p) - (j : ZMod p))).prod
    ∧ (js.foldl (fun nd j => if i = j then nd else
        (polyMul nd.1 [0 - (j : ZMod p), 1],
         nd.2 * ((i : ZMod p) - (j : ZMod p)))) nd).1 ≠ []
    ∧ (js.foldl (fun nd j => if i = j then nd else
        (polyMul nd.1 [0 - (j : ZMod p), 1],
         nd.2 * ((i : ZMod p) - (j : ZMod p)))) nd).1.length
      ≤ nd.1.length + (js.filter (fun j => j != i)).length := by
  induction js generalizing nd with
  | nil => simp [h1]
  | cons j js ih =>
    by_cases hij : i = j
    · have hfil : (j :: js).filter (fun j => j != i)
          = js.filter (fun j => j != i) := by
        simp [List.filter_cons, hij]
      rw [List.foldl_cons, if_pos hij, hfil]
      exact ih nd h1
    · have hfil : (j :: js).filter (fun j => j != i)
          = j :: js.filter (fun j => j != i) := by
        simp [List.filter_cons, Ne.symm hij]
      have hmulne : polyMul nd.1 [0 - (j : ZMod p), 1] ≠ [] :=
        polyMul_ne_nil h1 (by simp)
      obtain ⟨e1, e2, e3, e4⟩ := ih (polyMul nd.1 [0 - (j : ZMod p), 1],
        nd.2 * ((i : ZMod p) - (j : ZMod p))) hmulne
      rw [List.foldl_cons, if_neg hij, hfil]
      refine ⟨?_, ?_, e3, ?_⟩
      · rw [e1, toPoly_polyMul, toPoly_linear, List.map_cons, List.prod_cons]
        ring
      · rw [e2, List.map_cons, List.prod_cons]
        ring
      · have hlen : (polyMul nd.1 [0 - (j : ZMod p), 1]).length
            ≤ nd.1.length + 1 := by
          have := length_polyMul_le nd.1 [0 - (j : ZMod p), 1]
          simpa using this
        simp only [List.length_cons] at e4 ⊢
        omega

lemma lagrangeNumDen_spec (n i : ℕ) :
    toPoly (lagrangeNumDen (p := p) n i).1
      = (((List.range n).filter (fun j => j != i)).map
        (fun j : ℕ => Polynomial.X - Polynomial.C (j : ZMod p))).prod
    ∧ (lagrangeNumDen (p := p) n i).2
      = (((List.range n).filter (fun j => j != i)).map
        (fun j : ℕ => (i : ZMod p) - (j : ZMod p))).prod
    ∧ (lagrangeNumDen (p := p) n i).1 ≠ []
    ∧ (lagrangeNumDen (p := p) n i).1.length ≤ 1 + n := by
  obtain ⟨e1, e2, e3, e4⟩ := lagrangeNumDen_foldl (p := p) i (List.range n)
    ([1], 1) (by simp)
  have h1 : toPoly (p := p) [1] = 1 := by
    rw [toPoly_cons, toPoly_nil]
    simp
  refine ⟨by rw [lagrangeNumDen, e1, h1, one_mul], by rw [lagrangeNumDen, e2, one_mul],
    by rw [lagrangeNumDen]; exact e3, ?_⟩
  rw [lagrangeNumDen]
  calc _ ≤ _ := e4
  _ ≤ 1 + n := by
    have := List.length_filter_le (fun j => j != i) (List.range n)
    simp only [List.length_range] at this
    simp only [List.length_singleton]
    omega

lemma filter_ne_length_lt {n i : ℕ} (hi : i < n) :
    ((List.range n).filter (fun j => j != i)).length < n := by
  have h := List.length_eq_length_filter_add (l := List.range n)
    (fun j => j != i)
  have hmem : i ∈ (List.range n).filter (fun j => !(j != i)) :=
    List.mem_filter.2 ⟨List.mem_range.2 hi, by simp⟩
  have hpos := List.length_pos.2 (List.ne_nil_of_mem hmem)
  simp only [List.length_range] at h
  omega

lemma lagrangeNumDen_len_le {n i : ℕ} (hi : i < n) :
    (lagrangeNumDen (p := p) n i).1.length ≤ n := by
  obtain ⟨-, -, -, e4⟩ := lagrangeNumDen_foldl (p := p) i (List.range n)
    ([1], 1) (by simp)
  rw [lagrangeNumDen]
  have := filter_ne_length_lt hi
  simp only [List.length_singleton] at e4
  omega

lemma lagrangeNumDen_den_ne_zero [Fact p.Prime] (n i : ℕ) (hn : n ≤ p)
    (hi : i < n) : (lagrangeNumDen (p := p) n i).2 ≠ 0 := by
  obtain ⟨-, e2, -, -⟩ := lagrangeNumDen_spec (p := p) n i
  rw [e2]
  apply List.prod_ne_zero
  intro h0
  simp only [List.mem_map, List.mem_filter, List.mem_range] at h0
  obtain ⟨j, ⟨hj, hji⟩, hzero⟩ := h0
  have : (i : ZMod p) = (j : ZMod p) := sub_eq_zero.1 hzero
  have := natCast_zmod_inj (by omega) (by omega) this
  simp [this] at hji

/-- The mathematical value contributed by basis index `i` of the
interpolation loop (zero when the y-value is zero, matching the code's
skip). -/
noncomputable def lagrangeTerm (ys : List (ZMod p)) (n i : ℕ) :
    Polynomial (ZMod p) :=
  if ys.getD i 0 = 0 then 0
  else toPoly (lagrangeNumDen (p := p) n i).1
    * Polynomial.C ((lagrangeNumDen (p := p) n i).2)⁻¹
    * Polynomial.C (ys.getD i 0)

lemma lagrangeAux_spec [Fact p.Prime] (ys : List (ZMod p)) (n : ℕ) :
    ∀ (js : List ℕ) (total : List (ZMod p)),
    (∀ i ∈ js, ys.getD i 0 ≠ 0 → (lagrangeNumDen (p := p) n i).2 ≠ 0) →
    (∀ i ∈ js, i < n) →
    total ≠ [] → polyNew total = total →
    ∃ T, lagrangeAux ys n js total = some T ∧
      toPoly T = toPoly total + (js.map (lagrangeTerm ys n)).sum ∧
      T ≠ [] ∧ polyNew T = T ∧ T.length ≤ max total.length n := by
  intro js
  induction js with
  | nil =>
    intro total _ _ h0 hc
    exact ⟨total, rfl, by simp, h0, hc, le_max_left _ _⟩
  | cons i js ih =>
    intro total hden hjs h0 hc
    by_cases hyi : ys.getD i 0 = 0
    · obtain ⟨T, hrun, hsum, hT0, hTc, hTlen⟩ :=
        ih total (fun j hj => hden j (List.mem_cons_of_mem _ hj))
          (fun j hj => hjs j (List.mem_cons_of_mem _ hj)) h0 hc
      refine ⟨T, ?_, ?_, hT0, hTc, hTlen⟩
      · rw [show lagrangeAux ys n (i :: js) total = lagrangeAux ys n js total from
          by rw [lagrangeAux, if_pos hyi]]
        exact hrun
      · rw [hsum, List.map_cons, List.sum_cons, lagrangeTerm, if_pos hyi,
          zero_add]
    · have hdenne := hden i (List.mem_cons_self _ _) hyi
      obtain ⟨dinv, hinv, hmul⟩ := zmodInv_prime_some hdenne
      have hdinv : dinv = ((lagrangeNumDen (p := p) n i).2)⁻¹ :=
        eq_inv_of_mul_eq_one_right hmul
      obtain ⟨-, -, hnum_ne, hnum_len⟩ := lagrangeNumDen_spec (p := p) n i
      set total' := polyAdd total
        (polyScale (polyScale (lagrangeNumDen (p := p) n i).1 dinv)
          (ys.getD i 0)) with htotal'
      have h0' : total' ≠ [] := polyAdd_ne_nil _ h0
      have hc' : polyNew total' = total' := by rw [htotal', polyAdd, polyNew_idem]
      obtain ⟨T, hrun, hsum, hT0, hTc, hTlen⟩ :=
        ih total' (fun j hj => hden j (List.mem_cons_of_mem _ hj))
          (fun j hj => hjs j (List.mem_cons_of_mem _ hj)) h0' hc'
      refine ⟨T, ?_, ?_, hT0, hTc, ?_⟩
      · rw [show lagrangeAux ys n (i :: js) total
            = lagrangeAux ys n js total' from
          by rw [lagrangeAux, if_neg hyi, hinv]]
        exact hrun
      · rw [hsum, htotal', toPoly_polyAdd, toPoly_polyScale, toPoly_polyScale,
          List.map_cons, List.sum_cons, lagrangeTerm, if_neg hyi, hdinv]
        ring
      · have h1 : total'.length ≤ max total.length n := by
          have h2 := length_polyAdd_le total
            (polyScale (polyScale (lagrangeNumDen (p := p) n i).1 dinv)
              (ys.getD i 0))
          have h3 := length_polyScale_le
            (polyScale (lagrangeNumDen (p := p) n i).1 dinv) (ys.getD i 0)
          have h4 := length_polyScale_le (lagrangeNumDen (p := p) n i).1 dinv
          have h5 := lagrangeNumDen_len_le (p := p)
            (hjs i (List.mem_cons_self _ _))
          rw [← htotal'] at h2
          omega
        calc T.length ≤ max total'.length n := hTlen
        _ ≤ max (max total.length n) n := max_le_max_right _ h1
        _ = max total.length n := by rw [max_assoc, max_self]

lemma eval_lagrangeNum (n i k : ℕ) :
    Polynomial.eval ((k : ℕ) : ZMod p) (toPoly (lagrangeNumDen (p := p) n i).1)
      = (((List.range n).filter (fun j => j != i)).map
        (fun j : ℕ => ((k : ℕ) : ZMod p) - (j : ZMod p))).prod := by
  rw [(lagrangeNumDen_spec (p := p) n i).1]
  rw [show Polynomial.eval ((k : ℕ) : ZMod p)
      = (Polynomial.evalRingHom ((k : ℕ) : ZMod p) : Polynomial (ZMod p) → ZMod p)
      from rfl]
  rw [map_list_prod, List.map_map]
  congr 1
  apply List.map_congr_left
  intro j _
  simp

lemma eval_lagrangeTerm_self [Fact p.Prime] (ys : List (ZMod p)) (n k : ℕ)
    (hn : n ≤ p) (hk : k < n) :
    Polynomial.eval ((k : ℕ) : ZMod p) (lagrangeTerm ys n k) = ys.getD k 0 := by
  unfold lagrangeTerm
  by_cases hy : ys.getD k 0 = 0
  · rw [if_pos hy, hy]
    simp
  · rw [if_neg hy]
    rw [Polynomial.eval_mul, Polynomial.eval_mul, Polynomial.eval_C,
      Polynomial.eval_C, eval_lagrangeNum]
    have hden : (((List.range n).filter (fun j => j != k)).map
        (fun j : ℕ => ((k : ℕ) : ZMod p) - (j : ZMod p))).prod
        = (lagrangeNumDen (p := p) n k).2 :=
      ((lagrangeNumDen_spec (p := p) n k).2.1).symm
    rw [hden, mul_inv_cancel₀ (lagrangeNumDen_den_ne_zero n k hn hk), one_mul]

lemma eval_lagrangeTerm_other (ys : List (ZMod p)) (n i k : ℕ)
    (hk : k < n) (hik : i ≠ k) :
    Polynomial.eval ((k : ℕ) : ZMod p) (lagrangeTerm ys n i) = 0 := by
  unfold lagrangeTerm
  by_cases hy : ys.getD i 0 = 0
  · rw [if_pos hy]
    simp
  · rw [if_neg hy]
    rw [Polynomial.eval_mul, Polynomial.eval_mul, eval_lagrangeNum]
    have hz : (((List.range n).filter (fun j => j != i)).map
        (fun j : ℕ => ((k : ℕ) : ZMod p) - (j : ZMod p))).prod = 0 := by
      apply List.prod_eq_zero
      refine List.mem_map.2 ⟨k, ?_, by rw [sub_self]⟩
      refine List.mem_filter.2 ⟨List.mem_range.2 hk, ?_⟩
      simpa using Ne.symm hik
    rw [hz, zero_mul, zero_mul]

/-- Interpolation correctness for at most `p` points over a prime modulus:
it succeeds, the result is canonical of length at most `n`, it evaluates to
`ys[k]` at every point `k`, and the zero-y skip is a pure optimization. -/
lemma lagrange_interpolation_spec [Fact p.Prime] (ys : List (ZMod p))
    (hn : ys.length ≤ p) (h0 : ys ≠ []) :
    ∃ poly, lagrange_interpolation ys = some poly ∧ poly ≠ [] ∧
      polyNew poly = poly ∧ poly.length ≤ ys.length ∧
      ∀ k, k < ys.length → polyEval poly ((k : ℕ) : ZMod p) = ys.getD k 0 := by
  set n := ys.length with hndef
  have hn1 : 1 ≤ n := List.length_pos.2 h0
  obtain ⟨T, hrun, hsum, hT0, hTc, hTlen⟩ :=
    lagrangeAux_spec ys n (List.range n) [0]
      (fun i hi _ => lagrangeNumDen_den_ne_zero n i hn (List.mem_range.1 hi))
      (fun i hi => List.mem_range.1 hi)
      (by simp) rfl
  have hT0p : toPoly (p := p) [0] = 0 := by
    rw [toPoly_cons, toPoly_nil]
    simp
  refine ⟨T, ?_, hT0, hTc, ?_, ?_⟩
  · rw [lagrange_interpolation, if_neg h0]
    exact hrun
  · have : max ([(0 : ZMod p)]).length n = n := by
      simp only [List.length_singleton]
      omega
    rw [this] at hTlen
    exact hTlen
  · intro k hk
    rw [polyEval_eq, hsum, hT0p, zero_add]
    rw [show Polynomial.eval ((k : ℕ) : ZMod p)
        = (Polynomial.evalRingHom ((k : ℕ) : ZMod p) :
            Polynomial (ZMod p) → ZMod p) from rfl]
    rw [map_list_sum, List.map_map]
    have : (List.range n).map
        ((Polynomial.evalRingHom ((k : ℕ) : ZMod p)) ∘ lagrangeTerm ys n)
        = (List.range n).map
          (fun i => Polynomial.eval ((k : ℕ) : ZMod p) (lagrangeTerm ys n i)) :=
      rfl
    rw [this, list_sum_map_range]
    rw [Finset.sum_eq_single k]
    · exact eval_lagrangeTerm_self ys n k hn hk
    · intro i _ hik
      exact eval_lagrangeTerm_other ys n i k hk hik
    · intro hkmem
      exact absurd (Finset.mem_range.2 hk) hkmem

lemma getD_single_zero (i : ℕ) : ([(0 : ZMod p)]).getD i 0 = 0 := by
  cases i with
  | zero => rfl
  | succ j => rfl

lemma polyAdd_zero_right {t : List (ZMod p)} (hc : polyNew t = t) (h0 : t ≠ []) :
    polyAdd t [0] = t := by
  have hmax : max t.length ([(0 : ZMod p)]).length = t.length := by
    have := List.length_pos.2 h0
    simp only [List.length_singleton]
    omega
  rw [polyAdd, hmax]
  have hmap : (List.range t.length).map
      (fun i => t.getD i 0 + ([(0 : ZMod p)]).getD i 0)
      = t := by
    apply List.ext_getElem
    · simp
    · intro i h1 h2
      simp only [List.getElem_map, List.getElem_range]
      rw [getD_single_zero, add_zero, List.getD_eq_getElem?_getD,
        List.getElem?_eq_getElem h2]
      rfl
  rw [hmap, hc]

lemma polyScale_zero {x : List (ZMod p)} (h : x ≠ []) : polyScale x 0 = [0] := by
  rw [polyScale]
  have hmap : x.map (fun c => c * 0) = List.replicate x.length (0 : ZMod p) := by
    rw [List.eq_replicate_iff]
    refine ⟨by simp, ?_⟩
    intro b hb
    simp only [List.mem_map] at hb
    obtain ⟨a, -, rfl⟩ := hb
    exact mul_zero a
  rw [hmap, polyNew_replicate_zero (List.length_pos.2 h)]

lemma lagrangeAuxNoSkip_eq [Fact p.Prime] (ys : List (ZMod p)) (n : ℕ) :
    ∀ (js : List ℕ) (total : List (ZMod p)),
    (∀ i ∈ js, (lagrangeNumDen (p := p) n i).2 ≠ 0) →
    total ≠ [] → polyNew total = total →
    lagrangeAuxNoSkip ys n js total = lagrangeAux ys n js total := by
  intro js
  induction js with
  | nil => intro total _ _ _; rfl
  | cons i js ih =>
    intro total hden h0 hc
    have hdenne := hden i (List.mem_cons_self _ _)
    obtain ⟨dinv, hinv, -⟩ := zmodInv_prime_some hdenne
    obtain ⟨-, -, hnum_ne, -⟩ := lagrangeNumDen_spec (p := p) n i
    by_cases hyi : ys.getD i 0 = 0
    · have hstep : lagrangeAuxNoSkip ys n (i :: js) total
          = lagrangeAuxNoSkip ys n js (polyAdd total
            (polyScale (polyScale (lagrangeNumDen (p := p) n i).1 dinv)
              (ys.getD i 0))) := by
        rw [lagrangeAuxNoSkip, hinv]
      have hzero : polyAdd total
          (polyScale (polyScale (lagrangeNumDen (p := p) n i).1 dinv)
            (ys.getD i 0)) = total := by
        rw [hyi, polyScale_zero (polyScale_ne_nil _ hnum_ne),
          polyAdd_zero_right hc h0]
      rw [hstep, hzero, ih total (fun j hj => hden j (List.mem_cons_of_mem _ hj))
        h0 hc]
      rw [show lagrangeAux ys n (i :: js) total = lagrangeAux ys n js total from
        by rw [lagrangeAux, if_pos hyi]]
    · have hstep : lagrangeAuxNoSkip ys n (i :: js) total
          = lagrangeAuxNoSkip ys n js (polyAdd total
            (polyScale (polyScale (lagrangeNumDen (p := p) n i).1 dinv)
              (ys.getD i 0))) := by
        rw [lagrangeAuxNoSkip, hinv]
      have hstep' : lagrangeAux ys n (i :: js) total
          = lagrangeAux ys n js (polyAdd total
            (polyScale (polyScale (lagrangeNumDen (p := p) n i).1 dinv)
              (ys.getD i 0))) := by
        rw [lagrangeAux, if_neg hyi, hinv]
      rw [hstep, hstep']
      exact ih _ (fun j hj => hden j (List.mem_cons_of_mem _ hj))
        (polyAdd_ne_nil _ h0) (by rw [polyAdd, polyNew_idem])

/-- C9 fails as universally stated: with more points than the modulus the
basis denominators collide, `BigInt::modinv` has no inverse to return and the
source panics — here, three points over `𝔽₂` yield `none`. -/
theorem lagrange_more_points_than_modulus :
    lagrange_interpolation (p := 2) [1, 1, 1] = none := by decide

/-- C9 (amended with `n ≤ p`): for at most `p` y-values over a prime modulus
`p`, interpolation succeeds with a polynomial of degree `< n` that evaluates
to `y_values[i]` at every point `i`; the zero-y skip never changes the
result, and the empty input yields the (empty) zero polynomial. -/
theorem lagrange_interpolate_correct {p : ℕ} [Fact p.Prime]
    (ys : List (ZMod p)) (hn : ys.length ≤ p) :
    (ys = [] → lagrange_interpolation ys = some []) ∧
    (ys ≠ [] → ∃ poly, lagrange_interpolation ys = some poly ∧
      polyDegree poly < ys.length ∧
      ∀ k, k < ys.length → polyEval poly ((k : ℕ) : ZMod p) = ys.getD k 0) ∧
    lagrangeInterpolationNoSkip ys = lagrange_interpolation ys := by
  refine ⟨?_, ?_, ?_⟩
  · intro h
    rw [lagrange_interpolation, if_pos h]
  · intro h0
    obtain ⟨poly, hrun, hne, -, hlen, heval⟩ :=
      lagrange_interpolation_spec ys hn h0
    refine ⟨poly, hrun, ?_, heval⟩
    have h1 := List.length_pos.2 hne
    have h2 := List.length_pos.2 h0
    unfold polyDegree
    omega
  · by_cases h0 : ys = []
    · rw [lagrangeInterpolationNoSkip, lagrange_interpolation, if_pos h0,
        if_pos h0]
    · rw [lagrangeInterpolationNoSkip, lagrange_interpolation, if_neg h0,
        if_neg h0]
      exact lagrangeAuxNoSkip_eq ys ys.length (List.range ys.length) [0]
        (fun i hi => lagrangeNumDen_den_ne_zero _ i hn (List.mem_range.1 hi))
        (by simp) rfl

/-- Witness for `lagrange_interpolate_correct`: the three points `5, 0, 3`
over `𝔽₁₇`. -/
theorem lagrange_interpolate_correct_witness :
    (([5, 0, 3] : List (ZMod 17)) = [] →
      lagrange_interpolation (p := 17) [5, 0, 3] = some []) ∧
    (([5, 0, 3] : List (ZMod 17)) ≠ [] →
      ∃ poly, lagrange_interpolation (p := 17) [5, 0, 3] = some poly ∧
      polyDegree poly < ([5, 0, 3] : List (ZMod 17)).length ∧
      ∀ k, k < ([5, 0, 3] : List (ZMod 17)).length →
        polyEval poly ((k : ℕ) : ZMod 17) = ([5, 0, 3] : List (ZMod 17)).getD k 0) ∧
    lagrangeInterpolationNoSkip (p := 17) [5, 0, 3]
      = lagrange_interpolation (p := 17) [5, 0, 3] :=
  @lagrange_interpolate_correct 17 ⟨by norm_num⟩ [5, 0, 3] (by decide)

/-! ## QAP column extraction: what the dense vector holds -/

/-- The coefficient that the duplicate-overwriting column extraction records
for variable `i`: the last matching term's coefficient, `0` if absent. -/
def lcLast (lc : List (ℕ × ZMod p)) (i : ℕ) : ZMod p :=
  ((lc.filter (fun t => t.1 == i)).map Prod.snd).getLast?.getD 0

/-- The coefficient variable `i` carries in a linear combination, as
evaluation uses it: the sum of all matching terms' coefficients (`0` if the
variable does not appear).  With at most one term per variable this is "the"
coefficient of the spec. -/
def lcCoeff (lc : List (ℕ × ZMod p)) (i : ℕ) : ZMod p :=
  ((lc.filter (fun t => t.1 == i)).map Prod.snd).sum

/-- No variable appears twice in the linear combination. -/
def lcNodupKeys (lc : List (ℕ × ZMod p)) : Prop := (lc.map Prod.fst).Nodup

instance (lc : List (ℕ × ZMod p)) : Decidable (lcNodupKeys lc) := by
  unfold lcNodupKeys
  infer_instance

lemma lcLast_eq_lcCoeff {lc : List (ℕ × ZMod p)} (h : lcNodupKeys lc) (i : ℕ) :
    lcLast lc i = lcCoeff lc i := by
  induction lc with
  | nil => rfl
  | cons t lc ih =>
    unfold lcNodupKeys at h
    rw [List.map_cons, List.nodup_cons] at h
    obtain ⟨hnotin, hnd⟩ := h
    by_cases ht : t.1 = i
    · have hfl : lc.filter (fun t => t.1 == i) = [] := by
        rw [List.filter_eq_nil_iff]
        intro a ha
        simp only [beq_iff_eq]
        intro hai
        exact hnotin (List.mem_map.2 ⟨a, ha, by rw [hai, ht]⟩)
      unfold lcLast lcCoeff
      rw [List.filter_cons, if_pos (by simpa using ht), hfl]
      simp
    · unfold lcLast lcCoeff
      rw [List.filter_cons, if_neg (by simpa using ht)]
      exact ih hnd

lemma getLast?_cons_getD {α : Type} (a z : α) (l : List α) :
    ((a :: l).getLast?).getD z = l.getLast?.getD a := by
  induction l with
  | nil => rfl
  | cons b l _ =>
    rw [List.getLast?_cons_cons]
    cases h : (b :: l).getLast? with
    | none => simp [List.getLast?_eq_none_iff] at h
    | some x => rfl

lemma toDense_foldl_getD (m k : ℕ) (hk : k < m) :
    ∀ (pairs : List (ℕ × ZMod p)) (d0 : List (ZMod p)), d0.length = m →
    ((pairs.foldl (fun dense rv =>
        if rv.1 < m then dense.set rv.1 rv.2 else dense) d0).getD k 0)
      = (((pairs.filter (fun rv => rv.1 == k)).map Prod.snd).getLast?).getD
          (d0.getD k 0) := by
  intro pairs
  induction pairs with
  | nil => intro d0 _; rfl
  | cons rv rest ih =>
    intro d0 hlen
    have hlen1 : (if rv.1 < m then d0.set rv.1 rv.2 else d0).length = m := by
      by_cases h : rv.1 < m <;> simp [h, hlen]
    rw [List.foldl_cons, ih _ hlen1]
    by_cases hrk : rv.1 = k
    · have hset : (if rv.1 < m then d0.set rv.1 rv.2 else d0).getD k 0 = rv.2 := by
        rw [if_pos (by omega : rv.1 < m)]
        rw [List.getD_eq_getElem?_getD, hrk, List.getElem?_set_eq (by omega)]
        rfl
      rw [hset, List.filter_cons, if_pos (by simpa using hrk), List.map_cons,
        getLast?_cons_getD]
    · have hset : (if rv.1 < m then d0.set rv.1 rv.2 else d0).getD k 0
          = d0.getD k 0 := by
        by_cases h : rv.1 < m
        · rw [if_pos h, List.getD_eq_getElem?_getD,
            List.getElem?_set_ne hrk, ← List.getD_eq_getElem?_getD]
        · rw [if_neg h]
      rw [hset, List.filter_cons, if_neg (by simpa using hrk)]

lemma enumFrom_flatMap_if (h : Constraint p → List (ℕ × ZMod p))
    (cons : List (Constraint p)) (k : ℕ) :
    ∀ s, ((List.enumFrom s cons).flatMap
        (fun ic => if ic.1 = k then h ic.2 else []))
      = if s ≤ k ∧ k < s + cons.length
        then h (cons.getD (k - s) ⟨[], [], []⟩) else [] := by
  induction cons with
  | nil =>
    intro s
    rw [if_neg (by simp only [List.length_nil]; omega)]
    rfl
  | cons c rest ih =>
    intro s
    rw [List.enumFrom_cons, List.flatMap_cons, ih (s + 1)]
    simp only [List.length_cons]
    by_cases hsk : s = k
    · subst hsk
      rw [if_pos rfl, if_neg (by omega), if_pos ⟨le_refl s, by omega⟩]
      simp
    · rw [if_neg hsk, List.nil_append]
      by_cases hrange : s + 1 ≤ k ∧ k < s + 1 + rest.length
      · rw [if_pos hrange, if_pos (by omega)]
        congr 1
        rw [show k - s = (k - (s + 1)) + 1 from by omega]
        exact (List.getD_cons_succ).symm
      · rw [if_neg hrange, if_neg (by omega)]

lemma extract_column_filter (cs : ConstraintSystem p) (i k : ℕ)
    (hk : k < cs.constraints.length) (mk : MatrixKind) :
    (extract_column cs i mk).filter (fun rv => rv.1 == k)
      = ((matrixOf (cs.constraints.getD k ⟨[], [], []⟩) mk).filter
          (fun t => t.1 == i)).map (fun t => (k, t.2)) := by
  unfold extract_column
  rw [List.filter_flatMap]
  have hblock : ∀ ic : ℕ × Constraint p,
      (((matrixOf ic.2 mk).filter (fun t => t.1 == i)).map
        (fun t => (ic.1, t.2))).filter (fun rv => rv.1 == k)
      = if ic.1 = k
        then ((matrixOf ic.2 mk).filter (fun t => t.1 == i)).map
          (fun t => (k, t.2))
        else [] := by
    intro ic
    rw [List.filter_map]
    by_cases h : ic.1 = k
    · rw [if_pos h]
      have : ((fun rv : ℕ × ZMod p => rv.1 == k) ∘ fun t : ℕ × ZMod p =>
          (ic.1, t.2)) = fun _ => true := by
        funext t
        simp [h]
      rw [this, h, List.filter_true]
    · rw [if_neg h]
      have : ((fun rv : ℕ × ZMod p => rv.1 == k) ∘ fun t : ℕ × ZMod p =>
          (ic.1, t.2)) = fun _ => false := by
        funext t
        simpa using h
      rw [this, List.filter_false, List.map_nil]
  simp only [hblock]
  rw [List.enum_eq_enumFrom,
    enumFrom_flatMap_if (fun con => ((matrixOf con mk).filter
      (fun t => t.1 == i)).map (fun t => (k, t.2))) cs.constraints k 0]
  rw [if_pos ⟨Nat.zero_le k, by omega⟩, Nat.sub_zero]

lemma toDense_length (sparse : List (ℕ × ZMod p)) (m : ℕ) :
    (to_dense_vector sparse m).length = m := by
  unfold to_dense_vector
  generalize hd : List.replicate m (0 : ZMod p) = d0
  have hlen : d0.length = m := by rw [← hd]; simp
  clear hd
  induction sparse generalizing d0 with
  | nil => exact hlen
  | cons rv rest ih =>
    rw [List.foldl_cons]
    apply ih
    by_cases h : rv.1 < m <;> simp [h, hlen]

lemma getD_replicate_zero (m k : ℕ) :
    (List.replicate m (0 : ZMod p)).getD k 0 = 0 := by
  rw [List.getD_eq_getElem?_getD, List.getElem?_replicate]
  by_cases h : k < m <;> simp [h]

/-- What the dense column vector holds at constraint index `k`: the last
coefficient recorded for variable `i` in that constraint's selected linear
combination (C10's overwrite behaviour). -/
lemma toDense_extract_getD (cs : ConstraintSystem p) (i k : ℕ)
    (hk : k < cs.constraints.length) (mk : MatrixKind) :
    (to_dense_vector (extract_column cs i mk) cs.constraints.length).getD k 0
      = lcLast (matrixOf (cs.constraints.getD k ⟨[], [], []⟩) mk) i := by
  unfold to_dense_vector
  rw [toDense_foldl_getD cs.constraints.length k hk _ _ (by simp)]
  rw [extract_column_filter cs i k hk mk, getD_replicate_zero]
  unfold lcLast
  rw [List.map_map]
  rfl

/-- Interpolating column `i` of matrix `mk` succeeds when there are at most
`p` constraints, and the resulting polynomial evaluated at constraint index
`k` reproduces the recorded (last-match) coefficient. -/
lemma interpColumn_spec [Fact p.Prime] (cs : ConstraintSystem p)
    (hm : cs.constraints.length ≤ p) (i : ℕ) (mk : MatrixKind) :
    ∃ poly, interpColumn cs i mk = some poly ∧
      poly.length ≤ max 1 cs.constraints.length ∧
      ∀ k, k < cs.constraints.length →
        polyEval poly ((k : ℕ) : ZMod p)
          = lcLast (matrixOf (cs.constraints.getD k ⟨[], [], []⟩) mk) i := by
  unfold interpColumn
  by_cases hm0 : cs.constraints.length = 0
  · refine ⟨[], ?_, by simp, by intro k hk; omega⟩
    have hnil : to_dense_vector (extract_column cs i mk) cs.constraints.length
        = [] :=
      List.length_eq_zero.1 (by rw [toDense_length]; exact hm0)
    rw [hnil, lagrange_interpolation, if_pos rfl]
  · have hne : to_dense_vector (extract_column cs i mk)
        cs.constraints.length ≠ [] := by
      intro h
      have := toDense_length (extract_column cs i mk) cs.constraints.length
      rw [h] at this
      simp at this
      omega
    have hlen : (to_dense_vector (extract_column cs i mk)
        cs.constraints.length).length = cs.constraints.length :=
      toDense_length _ _
    obtain ⟨poly, hrun, -, -, hplen, heval⟩ :=
      lagrange_interpolation_spec
        (to_dense_vector (extract_column cs i mk) cs.constraints.length)
        (by rw [hlen]; exact hm) hne
    refine ⟨poly, hrun, by rw [hlen] at hplen; omega, ?_⟩
    intro k hk
    rw [heval k (by rw [hlen]; exact hk)]
    exact toDense_extract_getD cs i k hk mk

lemma mapM_option_some {α β : Type} (f : α → Option β) (d : β) (l : List α)
    (h : ∀ x ∈ l, (f x).isSome) :
    l.mapM f = some (l.map (fun x => (f x).getD d)) := by
  induction l with
  | nil => rfl
  | cons x l ih =>
    rw [List.mapM_cons, List.map_cons]
    have hx := h x (List.mem_cons_self _ _)
    obtain ⟨y, hy⟩ := Option.isSome_iff_exists.1 hx
    rw [hy, ih (fun a ha => h a (List.mem_cons_of_mem _ ha))]
    simp [hy]

lemma getD_map_range_fn {α : Type} (g : ℕ → α) (n i : ℕ) (d : α) (hi : i < n) :
    ((List.range n).map g).getD i d = g i := by
  rw [List.getD_eq_getElem?_getD, List.getElem?_map, List.getElem?_range hi]
  rfl

/-- Building the QAP succeeds with at most `p` constraints, and each
polynomial list is the per-column interpolation over `0 .. num_vars`. -/
lemma from_r1cs_spec [Fact p.Prime] (cs : ConstraintSystem p)
    (hm : cs.constraints.length ≤ p) :
    Qap.from_r1cs cs = some
      ⟨(List.range cs.next_var_index).map
          (fun i => (interpColumn cs i MatrixKind.A).getD []),
        (List.range cs.next_var_index).map
          (fun i => (interpColumn cs i MatrixKind.B).getD []),
        (List.range cs.next_var_index).map
          (fun i => (interpColumn cs i MatrixKind.C).getD [])⟩ := by
  have hsome : ∀ (mk : MatrixKind) i, (interpColumn cs i mk).isSome := by
    intro mk i
    obtain ⟨poly, hrun, -, -⟩ := interpColumn_spec cs hm i mk
    rw [hrun]
    rfl
  unfold Qap.from_r1cs
  rw [mapM_option_some _ [] _ (fun x _ => hsome MatrixKind.A x),
    mapM_option_some _ [] _ (fun x _ => hsome MatrixKind.B x),
    mapM_option_some _ [] _ (fun x _ => hsome MatrixKind.C x)]
  rfl

/-- Selects the polynomial list of a `Qap` for a matrix side. -/
def polysOf (qap : Qap p) : MatrixKind → List (List (ZMod p))
  | MatrixKind.A => qap.a_polys
  | MatrixKind.B => qap.b_polys
  | MatrixKind.C => qap.c_polys

lemma qap_eval_lcLast [Fact p.Prime] (cs : ConstraintSystem p)
    (hm : cs.constraints.length ≤ p) {qap : Qap p}
    (hqap : Qap.from_r1cs cs = some qap) (mk : MatrixKind) (i k : ℕ)
    (hi : i < cs.next_var_index) (hk : k < cs.constraints.length) :
    polyEval ((polysOf qap mk).getD i []) ((k : ℕ) : ZMod p)
      = lcLast (matrixOf (cs.constraints.getD k ⟨[], [], []⟩) mk) i := by
  rw [from_r1cs_spec cs hm] at hqap
  obtain ⟨poly, hrun, -, heval⟩ := interpColumn_spec cs hm i mk
  have hpolys : (polysOf qap mk).getD i [] = poly := by
    rw [← Option.some.inj hqap]
    cases mk <;>
      simp only [polysOf] <;>
      rw [getD_map_range_fn _ _ _ _ hi, hrun] <;>
      rfl
  rw [hpolys]
  exact heval k hk

/-- C2 fails as universally stated: three constraints over `𝔽₂` make the
interpolation points collide, the basis denominator vanishes, and
`Qap::from_r1cs` panics (here: `none`), producing no polynomials at all. -/
theorem qap_from_r1cs_fails_over_modulus :
    Qap.from_r1cs (p := 2)
      ⟨1, [⟨[(0, 1)], [], []⟩, ⟨[(0, 1)], [], []⟩, ⟨[(0, 1)], [], []⟩],
        [some 1]⟩ = none := by decide

/-- C2 (amended with `num_constraints ≤ p` and no duplicate variables inside
any linear combination): `from_r1cs` succeeds, the three polynomial
sequences all have length `num_variables`, and the polynomial of variable
`i` evaluated at constraint index `k` yields exactly the coefficient that
variable `i` carries in constraint `k`'s corresponding matrix, `0` when
absent. -/
theorem qap_from_r1cs_matches_matrices {p : ℕ} [Fact p.Prime]
    (cs : ConstraintSystem p) (hm : cs.constraints.length ≤ p)
    (hnodup : ∀ con ∈ cs.constraints,
      lcNodupKeys con.a ∧ lcNodupKeys con.b ∧ lcNodupKeys con.c) :
    ∃ qap, Qap.from_r1cs cs = some qap ∧
      qap.a_polys.length = cs.next_var_index ∧
      qap.b_polys.length = cs.next_var_index ∧
      qap.c_polys.length = cs.next_var_index ∧
      ∀ i, i < cs.next_var_index → ∀ k, k < cs.constraints.length →
        polyEval (qap.a_polys.getD i []) ((k : ℕ) : ZMod p)
          = lcCoeff (cs.constraints.getD k ⟨[], [], []⟩).a i ∧
        polyEval (qap.b_polys.getD i []) ((k : ℕ) : ZMod p)
          = lcCoeff (cs.constraints.getD k ⟨[], [], []⟩).b i ∧
        polyEval (qap.c_polys.getD i []) ((k : ℕ) : ZMod p)
          = lcCoeff (cs.constraints.getD k ⟨[], [], []⟩).c i := by
  refine ⟨_, from_r1cs_spec cs hm, by simp, by simp, by simp, ?_⟩
  intro i hi k hk
  have hmem : cs.constraints.getD k ⟨[], [], []⟩ ∈ cs.constraints := by
    rw [List.getD_eq_getElem?_getD, List.getElem?_eq_getElem hk]
    exact List.getElem_mem _
  obtain ⟨hna, hnb, hnc⟩ := hnodup _ hmem
  refine ⟨?_, ?_, ?_⟩
  · rw [← lcLast_eq_lcCoeff hna]
    exact qap_eval_lcLast cs hm (from_r1cs_spec cs hm) MatrixKind.A i k hi hk
  · rw [← lcLast_eq_lcCoeff hnb]
    exact qap_eval_lcLast cs hm (from_r1cs_spec cs hm) MatrixKind.B i k hi hk
  · rw [← lcLast_eq_lcCoeff hnc]
    exact qap_eval_lcLast cs hm (from_r1cs_spec cs hm) MatrixKind.C i k hi hk

/-- The driver's example circuit `y = x³ + 5` over `𝔽₁₇` with input `x = 3`
(`main.rs` lines 15–41): variables `[one, x, v1, v2, y]` and the three gate
constraints of `mul(x,x)`, `mul(v1,x)`, `add_const(v2, 5)`; every slot
assigned. -/
def mainCS : ConstraintSystem 17 :=
  ⟨5, [⟨[(1, 1)], [(1, 1)], [(2, 1)]⟩,
       ⟨[(2, 1)], [(1, 1)], [(3, 1)]⟩,
       ⟨[(3, 1), (0, 5)], [(0, 1)], [(4, 1)]⟩],
   [some 1, some 3, some 9, some 10, some 15]⟩

/-- Witness for `qap_from_r1cs_matches_matrices`: the driver's example
circuit. -/
theorem qap_from_r1cs_matches_matrices_witness :
    ∃ qap, Qap.from_r1cs mainCS = some qap ∧
      qap.a_polys.length = mainCS.next_var_index ∧
      qap.b_polys.length = mainCS.next_var_index ∧
      qap.c_polys.length = mainCS.next_var_index ∧
      ∀ i, i < mainCS.next_var_index → ∀ k, k < mainCS.constraints.length →
        polyEval (qap.a_polys.getD i []) ((k : ℕ) : ZMod 17)
          = lcCoeff (mainCS.constraints.getD k ⟨[], [], []⟩).a i ∧
        polyEval (qap.b_polys.getD i []) ((k : ℕ) : ZMod 17)
          = lcCoeff (mainCS.constraints.getD k ⟨[], [], []⟩).b i ∧
        polyEval (qap.c_polys.getD i []) ((k : ℕ) : ZMod 17)
          = lcCoeff (mainCS.constraints.getD k ⟨[], [], []⟩).c i :=
  @qap_from_r1cs_matches_matrices 17 ⟨by norm_num⟩ mainCS (by decide) (by decide)

/-- C10: when a linear combination contains several terms for one variable,
the dense column records only the last one (later occurrences overwrite
earlier ones), and the interpolated QAP polynomial at that constraint index
evaluates to that last coefficient (`lcLast`) — not to the sum that
linear-combination evaluation would use. -/
theorem qap_column_takes_last_duplicate {p : ℕ} [Fact p.Prime]
    (cs : ConstraintSystem p) (hm : cs.constraints.length ≤ p) (i k : ℕ)
    (hi : i < cs.next_var_index) (hk : k < cs.constraints.length)
    (mk : MatrixKind) :
    (to_dense_vector (extract_column cs i mk) cs.constraints.length).getD k 0
      = lcLast (matrixOf (cs.constraints.getD k ⟨[], [], []⟩) mk) i ∧
    ∀ qap, Qap.from_r1cs cs = some qap →
      polyEval ((polysOf qap mk).getD i []) ((k : ℕ) : ZMod p)
        = lcLast (matrixOf (cs.constraints.getD k ⟨[], [], []⟩) mk) i := by
  refine ⟨toDense_extract_getD cs i k hk mk, ?_⟩
  intro qap hqap
  exact qap_eval_lcLast cs hm hqap mk i k hi hk

/-- A one-gate system whose A-side linear combination mentions variable `0`
twice, with coefficients `1` and `1` (so evaluation sums to `2`, but the
column extraction records `1`). -/
def dupCS : ConstraintSystem 17 :=
  ⟨1, [⟨[(0, 1), (0, 1)], [(0, 1)], [(0, 2)]⟩], [some 1]⟩

/-- Witness for `qap_column_takes_last_duplicate` at the duplicate-term
system: the recorded value and the interpolated evaluation are the last
coefficient `1`, while evaluation-style summation gives `2 ≠ 1`. -/
theorem qap_column_takes_last_duplicate_witness :
    ((to_dense_vector (extract_column dupCS 0 MatrixKind.A)
        dupCS.constraints.length).getD 0 0
      = lcLast (matrixOf (dupCS.constraints.getD 0 ⟨[], [], []⟩)
          MatrixKind.A) 0 ∧
     ∀ qap, Qap.from_r1cs dupCS = some qap →
      polyEval ((polysOf qap MatrixKind.A).getD 0 []) ((0 : ℕ) : ZMod 17)
        = lcLast (matrixOf (dupCS.constraints.getD 0 ⟨[], [], []⟩)
            MatrixKind.A) 0) ∧
    lcLast (dupCS.constraints.getD 0 ⟨[], [], []⟩).a 0 = 1 ∧
    lcCoeff (dupCS.constraints.getD 0 ⟨[], [], []⟩).a 0 = 2 ∧
    ((1 : ZMod 17) ≠ 2) :=
  ⟨@qap_column_takes_last_duplicate 17 ⟨by norm_num⟩ dupCS (by decide) 0 0
      (by decide) (by decide) MatrixKind.A,
    by decide, by decide, by decide⟩

/-! ## The satisfiability protocol (driver contract) -/

lemma interpColumn_ne_nil [Fact p.Prime] (cs : ConstraintSystem p)
    (hm : cs.constraints.length ≤ p) (hm0 : 0 < cs.constraints.length)
    (i : ℕ) (mk : MatrixKind) :
    ∀ poly, interpColumn cs i mk = some poly → poly ≠ [] := by
  intro poly hrun
  have hne : to_dense_vector (extract_column cs i mk)
      cs.constraints.length ≠ [] := by
    intro h
    have := toDense_length (extract_column cs i mk) cs.constraints.length
    rw [h] at this
    simp at this
    omega
  obtain ⟨poly', hrun', hne', -, -, -⟩ :=
    lagrange_interpolation_spec
      (to_dense_vector (extract_column cs i mk) cs.constraints.length)
      (by rw [toDense_length]; exact hm) hne
  unfold interpColumn at hrun
  rw [hrun'] at hrun
  rw [← Option.some.inj hrun]
  exact hne'

lemma foldl_polyAdd_ne_nil {α : Type} (g : α → List (ZMod p)) :
    ∀ (l : List α) (acc : List (ZMod p)), acc ≠ [] →
    (l.foldl (fun acc x => polyAdd acc (g x)) acc) ≠ [] := by
  intro l
  induction l with
  | nil => intro acc h; exact h
  | cons x l ih =>
    intro acc h
    rw [List.foldl_cons]
    exact ih _ (polyAdd_ne_nil _ h)

lemma composePoly_enumFrom (polys : List (List (ZMod p))) :
    ∀ (w : List (ZMod p)) (s : ℕ) (acc : List (ZMod p)),
    toPoly ((List.enumFrom s w).foldl
      (fun acc iw => polyAdd acc (polyScale (polys.getD iw.1 []) iw.2)) acc)
    = toPoly acc + ∑ t ∈ Finset.range w.length,
        Polynomial.C (w.getD t 0) * toPoly (polys.getD (s + t) []) := by
  intro w
  induction w with
  | nil => intro s acc; simp
  | cons y ys ih =>
    intro s acc
    rw [List.enumFrom_cons, List.foldl_cons, ih (s + 1), toPoly_polyAdd,
      toPoly_polyScale]
    rw [List.length_cons, Finset.sum_range_succ']
    have hterm : ∀ t, Polynomial.C ((y :: ys).getD (t + 1) 0)
        * toPoly (polys.getD (s + (t + 1)) [])
        = Polynomial.C (ys.getD t 0) * toPoly (polys.getD (s + 1 + t) []) := by
      intro t
      rw [List.getD_cons_succ, show s + (t + 1) = s + 1 + t from by omega]
    rw [Finset.sum_congr rfl (fun t _ => hterm t)]
    simp only [List.getD_cons_zero, Nat.add_zero]
    ring

lemma composePoly_toPoly (polys : List (List (ZMod p))) (w : List (ZMod p)) :
    toPoly (composePoly polys w)
      = ∑ t ∈ Finset.range w.length,
          Polynomial.C (w.getD t 0) * toPoly (polys.getD t []) := by
  unfold composePoly
  rw [List.enum_eq_enumFrom, composePoly_enumFrom polys w 0 [], toPoly_nil,
    zero_add]
  exact Finset.sum_congr rfl (fun t _ => by rw [Nat.zero_add])

lemma composePoly_ne_nil (polys : List (List (ZMod p))) (w : List (ZMod p))
    (hw : w ≠ []) (h0 : polys.getD 0 [] ≠ []) : composePoly polys w ≠ [] := by
  obtain ⟨y, ys, rfl⟩ := List.exists_cons_of_ne_nil hw
  unfold composePoly
  rw [List.enum_eq_enumFrom, List.enumFrom_cons, List.foldl_cons]
  apply foldl_polyAdd_ne_nil
  exact polyAdd_ne_nil_right _ (polyScale_ne_nil _ h0)

lemma foldl_polyAdd_canon {α : Type} (g : α → List (ZMod p)) :
    ∀ (l : List α) (acc : List (ZMod p)), polyNew acc = acc →
    polyNew (l.foldl (fun acc x => polyAdd acc (g x)) acc)
      = l.foldl (fun acc x => polyAdd acc (g x)) acc := by
  intro l
  induction l with
  | nil => intro acc h; exact h
  | cons x l ih =>
    intro acc _
    rw [List.foldl_cons]
    exact ih _ (by rw [polyAdd, polyNew_idem])

lemma composePoly_canon (polys : List (List (ZMod p))) (w : List (ZMod p)) :
    polyNew (composePoly polys w) = composePoly polys w := by
  unfold composePoly
  exact foldl_polyAdd_canon _ _ [] rfl

lemma vanishing_foldl [Fact p.Prime] :
    ∀ (js : List ℕ) (z : List (ZMod p)), polyNew z = z → z ≠ [] →
      (toPoly z).Monic →
    toPoly (js.foldl (fun z (i : ℕ) => polyMul z [0 - (i : ZMod p), 1]) z)
      = toPoly z * (js.map
          (fun i : ℕ => Polynomial.X - Polynomial.C (i : ZMod p))).prod
    ∧ polyNew (js.foldl (fun z (i : ℕ) => polyMul z [0 - (i : ZMod p), 1]) z)
      = js.foldl (fun z (i : ℕ) => polyMul z [0 - (i : ZMod p), 1]) z
    ∧ js.foldl (fun z (i : ℕ) => polyMul z [0 - (i : ZMod p), 1]) z ≠ []
    ∧ (toPoly (js.foldl (fun z (i : ℕ) => polyMul z [0 - (i : ZMod p), 1]) z)).Monic
    ∧ (toPoly (js.foldl (fun z (i : ℕ) => polyMul z [0 - (i : ZMod p), 1]) z)).natDegree
      = (toPoly z).natDegree + js.length := by
  intro js
  induction js with
  | nil =>
    intro z hc h0 hm
    exact ⟨by simp, hc, h0, hm, by simp⟩
  | cons j js ih =>
    intro z hc h0 hm
    have hz' : toPoly (polyMul z [0 - (j : ZMod p), 1])
        = toPoly z * (Polynomial.X - Polynomial.C (j : ZMod p)) := by
      rw [toPoly_polyMul, toPoly_linear]
    have hc' : polyNew (polyMul z [0 - (j : ZMod p), 1])
        = polyMul z [0 - (j : ZMod p), 1] := by
      rw [polyMul, polyNew_idem]
    have h0' : polyMul z [0 - (j : ZMod p), 1] ≠ [] :=
      polyMul_ne_nil h0 (by simp)
    have hm' : (toPoly (polyMul z [0 - (j : ZMod p), 1])).Monic := by
      rw [hz']
      exact hm.mul (Polynomial.monic_X_sub_C _)
    obtain ⟨e1, e2, e3, e4, e5⟩ := ih _ hc' h0' hm'
    rw [List.foldl_cons]
    refine ⟨?_, e2, e3, e4, ?_⟩
    · rw [e1, hz', List.map_cons, List.prod_cons]
      ring
    · rw [e5, hz']
      have hXC : (Polynomial.X - Polynomial.C (j : ZMod p)) ≠ 0 :=
        (Polynomial.monic_X_sub_C _).ne_zero
      rw [Polynomial.natDegree_mul hm.ne_zero hXC,
        Polynomial.natDegree_X_sub_C]
      simp only [List.length_cons]
      omega

lemma vanishing_spec [Fact p.Prime] (m : ℕ) :
    toPoly (vanishing (p := p) m)
      = ((List.range m).map
          (fun k : ℕ => Polynomial.X - Polynomial.C (k : ZMod p))).prod
    ∧ polyNew (vanishing (p := p) m) = vanishing (p := p) m
    ∧ vanishing (p := p) m ≠ []
    ∧ (vanishing (p := p) m).length = m + 1 := by
  have h1 : toPoly (p := p) [1] = 1 := by
    rw [toPoly_cons, toPoly_nil]
    simp
  obtain ⟨e1, e2, e3, e4, e5⟩ := vanishing_foldl (p := p) (List.range m) [1]
    rfl (by simp) (by rw [h1]; exact Polynomial.monic_one)
  unfold vanishing
  refine ⟨by rw [e1, h1, one_mul], e2, e3, ?_⟩
  have hdeg : (toPoly ((List.range m).foldl
      (fun z (i : ℕ) => polyMul z [0 - (i : ZMod p), 1]) [1])).natDegree = m := by
    rw [e5, h1]
    simp
  have := canon_length e2 e3 e4.ne_zero
  omega

lemma vanishing_eval_zero [Fact p.Prime] (m k : ℕ) (hk : k < m) :
    Polynomial.eval ((k : ℕ) : ZMod p) (toPoly (vanishing (p := p) m)) = 0 := by
  rw [(vanishing_spec (p := p) m).1]
  rw [show Polynomial.eval ((k : ℕ) : ZMod p)
      = (Polynomial.evalRingHom ((k : ℕ) : ZMod p) :
          Polynomial (ZMod p) → ZMod p) from rfl]
  rw [map_list_prod]
  apply List.prod_eq_zero
  rw [List.map_map]
  refine List.mem_map.2 ⟨k, List.mem_range.2 hk, ?_⟩
  simp

lemma foldl_add_sum {α : Type} (f : α → ZMod p) :
    ∀ (l : List α) (a : ZMod p),
    l.foldl (fun s x => s + f x) a = a + (l.map f).sum := by
  intro l
  induction l with
  | nil => intro a; simp
  | cons x l ih =>
    intro a
    rw [List.foldl_cons, ih, List.map_cons, List.sum_cons]
    ring

lemma evaluate_lc_eq_sum (lc : List (ℕ × ZMod p)) (w : List (ZMod p)) :
    evaluate_lc lc w = (lc.map (fun t => t.2 * w.getD t.1 0)).sum := by
  unfold evaluate_lc
  rw [foldl_add_sum, zero_add]

lemma lcCoeff_cons (t : ℕ × ZMod p) (lc : List (ℕ × ZMod p)) (i : ℕ) :
    lcCoeff (t :: lc) i = (if t.1 = i then t.2 else 0) + lcCoeff lc i := by
  unfold lcCoeff
  rw [List.filter_cons]
  by_cases h : t.1 = i
  · rw [if_pos (by simpa using h), if_pos h, List.map_cons, List.sum_cons]
  · rw [if_neg (by simpa using h), if_neg h, zero_add]

lemma sum_lcCoeff_eq_evaluate_lc (n : ℕ) (w : List (ZMod p)) :
    ∀ (lc : List (ℕ × ZMod p)), (∀ t ∈ lc, t.1 < n) →
    ∑ i ∈ Finset.range n, w.getD i 0 * lcCoeff lc i = evaluate_lc lc w := by
  intro lc
  induction lc with
  | nil =>
    intro _
    unfold evaluate_lc lcCoeff
    simp
  | cons t lc ih =>
    intro hvars
    rw [evaluate_lc_eq_sum, List.map_cons, List.sum_cons,
      ← evaluate_lc_eq_sum,
      ← ih (fun a ha => hvars a (List.mem_cons_of_mem _ ha))]
    have hsplit : ∀ i, w.getD i 0 * lcCoeff (t :: lc) i
        = (if t.1 = i then w.getD i 0 * t.2 else 0)
          + w.getD i 0 * lcCoeff lc i := by
      intro i
      rw [lcCoeff_cons]
      by_cases h : t.1 = i
      · rw [if_pos h, if_pos h]
        ring
      · rw [if_neg h, if_neg h]
        ring
    rw [Finset.sum_congr rfl (fun i _ => hsplit i), Finset.sum_add_distrib]
    have hmem : t.1 ∈ Finset.range n :=
      Finset.mem_range.2 (hvars t (List.mem_cons_self _ _))
    rw [Finset.sum_ite_eq (Finset.range n) t.1 (fun i => w.getD i 0 * t.2),
      if_pos hmem]
    ring

lemma compose_eval [Fact p.Prime] (cs : ConstraintSystem p)
    (hmp : cs.constraints.length ≤ p) {qap : Qap p}
    (hqap : Qap.from_r1cs cs = some qap) (w : List (ZMod p))
    (hw : w.length = cs.next_var_index) (mk : MatrixKind) (k : ℕ)
    (hk : k < cs.constraints.length)
    (hnd : lcNodupKeys (matrixOf (cs.constraints.getD k ⟨[], [], []⟩) mk))
    (hv : ∀ t ∈ matrixOf (cs.constraints.getD k ⟨[], [], []⟩) mk,
      t.1 < cs.next_var_index) :
    Polynomial.eval ((k : ℕ) : ZMod p)
        (toPoly (composePoly (polysOf qap mk) w))
      = evaluate_lc (matrixOf (cs.constraints.getD k ⟨[], [], []⟩) mk) w := by
  rw [composePoly_toPoly]
  rw [show Polynomial.eval ((k : ℕ) : ZMod p)
      = (Polynomial.evalRingHom ((k : ℕ) : ZMod p) :
          Polynomial (ZMod p) → ZMod p) from rfl]
  rw [map_sum]
  have hterm : ∀ t, t < w.length →
      (Polynomial.evalRingHom ((k : ℕ) : ZMod p))
        (Polynomial.C (w.getD t 0) * toPoly ((polysOf qap mk).getD t []))
      = w.getD t 0
        * lcCoeff (matrixOf (cs.constraints.getD k ⟨[], [], []⟩) mk) t := by
    intro t ht
    rw [map_mul]
    simp only [Polynomial.coe_evalRingHom, Polynomial.eval_C]
    rw [← polyEval_eq, qap_eval_lcLast cs hmp hqap mk t k (by omega) hk,
      lcLast_eq_lcCoeff hnd]
  rw [Finset.sum_congr rfl (fun t ht => hterm t (Finset.mem_range.1 ht))]
  rw [hw]
  exact sum_lcCoeff_eq_evaluate_lc _ w _ hv

/-- The driver pipeline on a well-formed system: the remainder exists and is
the zero polynomial exactly when the witness satisfies every constraint. -/
lemma protocol_spec {p : ℕ} [Fact p.Prime] (cs : ConstraintSystem p)
    (w : List (ZMod p))
    (hm0 : 0 < cs.constraints.length) (hmp : cs.constraints.length ≤ p)
    (hv0 : 0 < cs.next_var_index)
    (hnodup : ∀ con ∈ cs.constraints,
      lcNodupKeys con.a ∧ lcNodupKeys con.b ∧ lcNodupKeys con.c)
    (hvars : ∀ con ∈ cs.constraints,
      (∀ t ∈ con.a, t.1 < cs.next_var_index) ∧
      (∀ t ∈ con.b, t.1 < cs.next_var_index) ∧
      (∀ t ∈ con.c, t.1 < cs.next_var_index))
    (hw : w.length = cs.next_var_index) :
    ∃ r, protocolRemainder cs w = some r ∧
      (isZeroPoly r = true ↔ is_satisfied cs w = true) := by
  have hqap := from_r1cs_spec cs hmp
  set qap : Qap p :=
    ⟨(List.range cs.next_var_index).map
        (fun i => (interpColumn cs i MatrixKind.A).getD []),
      (List.range cs.next_var_index).map
        (fun i => (interpColumn cs i MatrixKind.B).getD []),
      (List.range cs.next_var_index).map
        (fun i => (interpColumn cs i MatrixKind.C).getD [])⟩ with hqapdef
  -- nonemptiness of the first column polynomial of each matrix
  have hcol0 : ∀ mk : MatrixKind, (polysOf qap mk).getD 0 [] ≠ [] := by
    intro mk
    obtain ⟨poly, hrun, -, -⟩ := interpColumn_spec cs hmp 0 mk
    have hgd : (polysOf qap mk).getD 0 [] = poly := by
      cases mk <;>
        simp only [hqapdef, polysOf] <;>
        rw [getD_map_range_fn _ _ _ _ hv0, hrun] <;> rfl
    rw [hgd]
    exact interpColumn_ne_nil cs hmp hm0 0 mk poly hrun
  have hwne : w ≠ [] := by
    intro h
    rw [h] at hw
    simp at hw
    omega
  have haxne : composePoly (polysOf qap MatrixKind.A) w ≠ [] :=
    composePoly_ne_nil _ _ hwne (hcol0 MatrixKind.A)
  have hbxne : composePoly (polysOf qap MatrixKind.B) w ≠ [] :=
    composePoly_ne_nil _ _ hwne (hcol0 MatrixKind.B)
  set a_x := composePoly (polysOf qap MatrixKind.A) w with ha_x
  set b_x := composePoly (polysOf qap MatrixKind.B) w with hb_x
  set c_x := composePoly (polysOf qap MatrixKind.C) w with hc_x
  set p_x := polyAdd (polyMul a_x b_x) (polyScale c_x (0 - 1)) with hp_x
  have hpxne : p_x ≠ [] :=
    polyAdd_ne_nil _ (polyMul_ne_nil haxne hbxne)
  have hpxc : polyNew p_x = p_x := by rw [hp_x, polyAdd, polyNew_idem]
  obtain ⟨hz1, hz2, hz3, hz4⟩ := vanishing_spec (p := p) cs.constraints.length
  obtain ⟨q, r, hdiv, hid, hqc, hrc, hrne, hrlen⟩ :=
    polyDiv_some hpxc hpxne hz2 (by omega)
  have hrun : protocolRemainder cs w = some r := by
    unfold protocolRemainder
    rw [hqap]
    show (polyDiv (polyAdd (polyMul (composePoly qap.a_polys w)
        (composePoly qap.b_polys w))
        (polyScale (composePoly qap.c_polys w) (0 - 1)))
        (vanishing cs.constraints.length)).map Prod.snd = some r
    rw [show composePoly qap.a_polys w = a_x from rfl,
      show composePoly qap.b_polys w = b_x from rfl,
      show composePoly qap.c_polys w = c_x from rfl, ← hp_x, hdiv]
    rfl
  -- the remainder takes the constraint residual value at each gate index
  have hreval : ∀ k, k < cs.constraints.length →
      Polynomial.eval ((k : ℕ) : ZMod p) (toPoly r)
      = evaluate_lc (cs.constraints.getD k ⟨[], [], []⟩).a w
        * evaluate_lc (cs.constraints.getD k ⟨[], [], []⟩).b w
        - evaluate_lc (cs.constraints.getD k ⟨[], [], []⟩).c w := by
    intro k hk
    have hmem : cs.constraints.getD k ⟨[], [], []⟩ ∈ cs.constraints := by
      rw [List.getD_eq_getElem?_getD, List.getElem?_eq_getElem hk]
      exact List.getElem_mem _
    obtain ⟨hna, hnb, hnc⟩ := hnodup _ hmem
    obtain ⟨hva, hvb, hvc⟩ := hvars _ hmem
    have hA := compose_eval cs hmp hqap w hw MatrixKind.A k hk hna hva
    have hB := compose_eval cs hmp hqap w hw MatrixKind.B k hk hnb hvb
    have hC := compose_eval cs hmp hqap w hw MatrixKind.C k hk hnc hvc
    have hpxeval : Polynomial.eval ((k : ℕ) : ZMod p) (toPoly p_x)
        = evaluate_lc (cs.constraints.getD k ⟨[], [], []⟩).a w
          * evaluate_lc (cs.constraints.getD k ⟨[], [], []⟩).b w
          - evaluate_lc (cs.constraints.getD k ⟨[], [], []⟩).c w := by
      rw [hp_x, toPoly_polyAdd, toPoly_polyMul, toPoly_polyScale]
      have hC1 : Polynomial.C ((0 : ZMod p) - 1) = -1 := by
        rw [map_sub, map_zero, map_one]
        ring
      rw [hC1]
      simp only [Polynomial.eval_add, Polynomial.eval_mul, Polynomial.eval_neg,
        Polynomial.eval_one]
      rw [hA, hB, hC]
      unfold matrixOf
      ring
    have := congrArg (Polynomial.eval ((k : ℕ) : ZMod p)) hid
    simp only [Polynomial.eval_add, Polynomial.eval_mul] at this
    rw [vanishing_eval_zero cs.constraints.length k hk, mul_zero,
      zero_add] at this
    rw [this, hpxeval]
  refine ⟨r, hrun, ?_, ?_⟩
  · -- zero remainder forces every constraint to hold
    intro hzero
    have hr0 : toPoly r = 0 := (isZeroPoly_iff r).1 hzero
    unfold is_satisfied
    rw [List.all_eq_true]
    intro con hcon
    obtain ⟨k, hk, hck⟩ := List.mem_iff_getElem.1 hcon
    have hgd : cs.constraints.getD k ⟨[], [], []⟩ = con := by
      rw [List.getD_eq_getElem?_getD, List.getElem?_eq_getElem hk, hck]
      rfl
    have := hreval k hk
    rw [hr0, hgd] at this
    simp only [Polynomial.eval_zero] at this
    rw [beq_iff_eq]
    exact sub_eq_zero.1 this.symm
  · -- a satisfied system forces the zero remainder
    intro hsat
    have hall := List.all_eq_true.1 hsat
    have hroots : ∀ k, k < cs.constraints.length →
        Polynomial.eval ((k : ℕ) : ZMod p) (toPoly r) = 0 := by
      intro k hk
      have hmem : cs.constraints.getD k ⟨[], [], []⟩ ∈ cs.constraints := by
        rw [List.getD_eq_getElem?_getD, List.getElem?_eq_getElem hk]
        exact List.getElem_mem _
      have := hall _ hmem
      rw [beq_iff_eq] at this
      rw [hreval k hk, this, sub_self]
    have hr0 : toPoly r = 0 := by
      apply Polynomial.eq_zero_of_natDegree_lt_card_of_eval_eq_zero'
        (toPoly r) ((Finset.range cs.constraints.length).image
          (fun k : ℕ => ((k : ℕ) : ZMod p)))
      · intro x hx
        obtain ⟨k, hk, rfl⟩ := Finset.mem_image.1 hx
        exact hroots k (Finset.mem_range.1 hk)
      · have hcard : ((Finset.range cs.constraints.length).image
            (fun k : ℕ => ((k : ℕ) : ZMod p))).card
            = cs.constraints.length := by
          rw [Finset.card_image_of_injOn, Finset.card_range]
          intro x hx y hy hxy
          exact natCast_zmod_inj
            (by have := Finset.mem_range.1 hx; omega)
            (by have := Finset.mem_range.1 hy; omega) hxy
        rw [hcard]
        have h1 := natDegree_toPoly_le r
        have h2 := List.length_pos.2 hrne
        omega
    rw [isZeroPoly_iff]
    exact hr0

/-- C1 fails as stated for arbitrary constraint systems: in `dupCS` (one
gate, A-side mentions variable 0 twice) the witness `[1]` satisfies the
system (`2·1 = 2`), yet the QAP pipeline records only the last duplicate
coefficient, so the division remainder is `[16] ≠ 0`: the claimed
equivalence "zero remainder iff satisfied" is violated. -/
theorem protocol_duplicate_term_counterexample :
    is_satisfied dupCS [1] = true ∧
    protocolRemainder dupCS [1] = some [16] ∧
    isZeroPoly ([16] : List (ZMod 17)) = false := by
  refine ⟨by decide, by decide, by decide⟩

/-- C1 (amended: at least one constraint and at most `p` of them, at least
one variable, no duplicate variable inside any linear combination, all
referenced variables in range, witness fully assigned): the protocol
remainder exists and is the zero polynomial iff `is_satisfied` holds; in
particular mutating any single witness entry so that some constraint breaks
makes the remainder nonzero. -/
theorem protocol_remainder_zero_iff_satisfied {p : ℕ} [Fact p.Prime]
    (cs : ConstraintSystem p) (w : List (ZMod p))
    (hm0 : 0 < cs.constraints.length) (hmp : cs.constraints.length ≤ p)
    (hv0 : 0 < cs.next_var_index)
    (hnodup : ∀ con ∈ cs.constraints,
      lcNodupKeys con.a ∧ lcNodupKeys con.b ∧ lcNodupKeys con.c)
    (hvars : ∀ con ∈ cs.constraints,
      (∀ t ∈ con.a, t.1 < cs.next_var_index) ∧
      (∀ t ∈ con.b, t.1 < cs.next_var_index) ∧
      (∀ t ∈ con.c, t.1 < cs.next_var_index))
    (hw : w.length = cs.next_var_index) :
    (∃ r, protocolRemainder cs w = some r ∧
      (isZeroPoly r = true ↔ is_satisfied cs w = true)) ∧
    (∀ j (v : ZMod p), is_satisfied cs (w.set j v) = false →
      ∃ r, protocolRemainder cs (w.set j v) = some r ∧
        isZeroPoly r = false) := by
  refine ⟨protocol_spec cs w hm0 hmp hv0 hnodup hvars hw, ?_⟩
  intro j v hfalse
  obtain ⟨r, hrun, hiff⟩ := protocol_spec cs (w.set j v) hm0 hmp hv0 hnodup
    hvars (by rw [List.length_set]; exact hw)
  refine ⟨r, hrun, ?_⟩
  rw [Bool.eq_false_iff]
  intro htrue
  rw [hiff.1 htrue] at hfalse
  exact Bool.noConfusion hfalse

/-- Witness for `protocol_remainder_zero_iff_satisfied`: the driver's
`x³ + 5` circuit with witness `[1, 3, 9, 10, 15]` over `𝔽₁₇`. -/
theorem protocol_remainder_zero_iff_satisfied_witness :
    (∃ r, protocolRemainder mainCS [1, 3, 9, 10, 15] = some r ∧
      (isZeroPoly r = true ↔ is_satisfied mainCS [1, 3, 9, 10, 15] = true)) ∧
    (∀ j (v : ZMod 17),
      is_satisfied mainCS (([1, 3, 9, 10, 15] : List (ZMod 17)).set j v)
        = false →
      ∃ r, protocolRemainder mainCS
          (([1, 3, 9, 10, 15] : List (ZMod 17)).set j v) = some r ∧
        isZeroPoly r = false) :=
  @protocol_remainder_zero_iff_satisfied 17 ⟨by norm_num⟩ mainCS
    [1, 3, 9, 10, 15] (by decide) (by decide) (by decide) (by decide)
    (by decide) (by decide)

/-! ## FieldElement: representation invariant and square roots -/

namespace FieldElement

lemma new_value_eq_emod (v P : ℤ) (hP : 0 < P) :
    (new v P).value = v % P := by
  unfold new
  have h1 : 0 ≤ v.tmod P + P := by
    rcases le_or_lt 0 v with hv | hv
    · have := Int.tmod_nonneg P hv
      omega
    · have h2 : (-v).tmod P < P := Int.tmod_lt_of_pos (-v) hP
      have h3 : v.tmod P = -((-v).tmod P) := by
        rw [Int.tmod_def, Int.tmod_def, Int.neg_tdiv]
        ring
      omega
  rw [Int.tmod_eq_emod h1 (le_of_lt hP)]
  have h4 : (v.tmod P + P) % P = v.tmod P % P := Int.add_emod_self
  rw [h4]
  conv_rhs => rw [← Int.tmod_add_tdiv v P]
  rw [Int.add_mul_emod_self_left]

lemma new_wf {P : ℤ} (hP : 0 < P) (v : ℤ) : (new v P).wf := by
  unfold wf
  rw [new_value_eq_emod v P hP]
  show 0 ≤ v % P ∧ v % P < (new v P).p
  rw [show (new v P).p = P from rfl]
  exact ⟨Int.emod_nonneg v (by omega), Int.emod_lt_of_pos v hP⟩

lemma new_p (v P : ℤ) : (new v P).p = P := rfl

lemma powLoop_wf {P : ℤ} (hP : 0 < P) :
    ∀ (e : ℕ) (res base : FieldElement), res.wf → res.p = P → base.p = P →
    (powLoop res base e).wf ∧ (powLoop res base e).p = P := by
  intro e
  induction e using Nat.strong_induction_on with
  | _ e ih =>
    intro res base hres hresp hbasep
    cases e with
    | zero => rw [powLoop]; exact ⟨hres, hresp⟩
    | succ k =>
      rw [powLoop]
      apply ih ((k + 1) / 2) (Nat.div_lt_self (Nat.succ_pos _) one_lt_two)
      · by_cases h : (k + 1) % 2 = 1
        · rw [if_pos h]
          exact new_wf (by rw [show res.p = P from hresp]; exact hP) _
        · rw [if_neg h]
          exact hres
      · by_cases h : (k + 1) % 2 = 1
        · rw [if_pos h]
          exact hresp ▸ rfl
        · rw [if_neg h]
          exact hresp
      · exact hbasep ▸ rfl

lemma pow_wf {P : ℤ} (hP : 0 < P) {a : FieldElement} (hap : a.p = P) (e : ℕ) :
    (a.pow e).wf ∧ (a.pow e).p = P := by
  unfold pow
  rw [hap]
  exact powLoop_wf hP e _ _ (new_wf hP 1) rfl hap

end FieldElement

/-- C7: every value produced by the `FieldElement` operations again satisfies
`0 ≤ value < modulus` and carries the same modulus: the constructor
normalizes any (possibly negative) input by the true mathematical remainder,
and `add`, `sub`, `mul`, `div`, `inverse`, `pow` and `sqrt` all return
normalized elements of the same modulus. -/
theorem field_element_invariant (P : ℤ) (hP : 0 < P) (v : ℤ) (e : ℕ)
    (a b : FieldElement) (hap : a.p = P) (hbp : b.p = P) :
    ((FieldElement.new v P).wf ∧ (FieldElement.new v P).p = P) ∧
    ((a.add b).wf ∧ (a.add b).p = P) ∧
    ((a.sub b).wf ∧ (a.sub b).p = P) ∧
    ((a.mul b).wf ∧ (a.mul b).p = P) ∧
    (∀ r, a.inverse = some r → r.wf ∧ r.p = P) ∧
    (∀ r, a.fdiv b = some r → r.wf ∧ r.p = P) ∧
    ((a.pow e).wf ∧ (a.pow e).p = P) ∧
    (∀ r, a.sqrt = some r → r.wf ∧ r.p = P) := by
  have hPa : 0 < a.p := by rw [hap]; exact hP
  refine ⟨⟨FieldElement.new_wf hP v, rfl⟩, ⟨FieldElement.new_wf hPa _, hap⟩,
    ⟨FieldElement.new_wf hPa _, hap⟩, ⟨FieldElement.new_wf hPa _, hap⟩,
    ?_, ?_, FieldElement.pow_wf hP hap e, ?_⟩
  · intro r hr
    unfold FieldElement.inverse at hr
    obtain ⟨x, -, rfl⟩ := Option.map_eq_some'.1 hr
    exact ⟨FieldElement.new_wf hPa x, hap⟩
  · intro r hr
    unfold FieldElement.fdiv FieldElement.inverse at hr
    rw [Option.map_map] at hr
    obtain ⟨x, -, rfl⟩ := Option.map_eq_some'.1 hr
    have hbP : 0 < b.p := by rw [hbp]; exact hP
    refine ⟨FieldElement.new_wf hPa _, hap⟩
  · intro r hr
    unfold FieldElement.sqrt at hr
    by_cases h4 : a.p.tmod 4 = 3
    · rw [if_pos h4] at hr
      by_cases hcheck : (a.pow (((a.p + 1).tdiv 4).toNat)).mul
          (a.pow (((a.p + 1).tdiv 4).toNat)) = a
      · rw [if_pos hcheck] at hr
        rw [← Option.some.inj hr]
        exact FieldElement.pow_wf hP hap _
      · rw [if_neg hcheck] at hr
        exact Option.noConfusion hr
    · rw [if_neg h4] at hr
      exact Option.noConfusion hr

/-- Witness for `field_element_invariant`: modulus `17`, input `-5`,
elements `12 mod 17` and `3 mod 17`, exponent `3`. -/
theorem field_element_invariant_witness :
    ((FieldElement.new (-5) 17).wf ∧ (FieldElement.new (-5) 17).p = 17) ∧
    ((FieldElement.mk 12 17).add ⟨3, 17⟩).wf ∧
      ((FieldElement.mk 12 17).add ⟨3, 17⟩).p = 17 ∧
    ((FieldElement.mk 12 17).pow 3).wf ∧
      ((FieldElement.mk 12 17).pow 3).p = 17 := by
  obtain ⟨h1, h2, -, -, -, -, h7, -⟩ :=
    field_element_invariant 17 (by norm_num) (-5) 3 ⟨12, 17⟩ ⟨3, 17⟩ rfl rfl
  exact ⟨h1, h2.1, h2.2, h7.1, h7.2⟩


/-! ## Projection of `FieldElement` to the mathematical field `ZMod q` -/

namespace FieldElement

/-- Project a field element to the residue its `value` represents in `ZMod q`. -/
def toZMod (q : ℕ) (a : FieldElement) : ZMod q := (a.value : ZMod q)

lemma toZMod_new (q : ℕ) (hq : 0 < q) (v : ℤ) :
    toZMod q (new v (q : ℤ)) = (v : ZMod q) := by
  unfold toZMod
  rw [new_value_eq_emod v (q : ℤ) (by exact_mod_cast hq), ZMod.intCast_mod]

lemma toZMod_mul (q : ℕ) (hq : 0 < q) (a b : FieldElement)
    (hap : a.p = (q : ℤ)) :
    toZMod q (a.mul b) = toZMod q a * toZMod q b := by
  unfold mul
  rw [hap, toZMod_new q hq, Int.cast_mul]
  rfl

lemma toZMod_powLoop (q : ℕ) (hq : 0 < q) :
    ∀ (e : ℕ) (res base : FieldElement), res.p = (q : ℤ) → base.p = (q : ℤ) →
      toZMod q (powLoop res base e) = toZMod q res * (toZMod q base) ^ e := by
  intro e
  induction e using Nat.strong_induction_on with
  | _ e ih =>
    intro res base hresp hbasep
    cases e with
    | zero => rw [powLoop, pow_zero, mul_one]
    | succ k =>
      rw [powLoop]
      have hp1 : (if (k + 1) % 2 = 1 then res.mul base else res).p = (q : ℤ) := by
        by_cases h : (k + 1) % 2 = 1
        · rw [if_pos h]; exact hresp ▸ rfl
        · rw [if_neg h]; exact hresp
      have hp2 : (base.mul base).p = (q : ℤ) := hbasep ▸ rfl
      rw [ih ((k + 1) / 2) (Nat.div_lt_self (Nat.succ_pos _) one_lt_two) _ _
        hp1 hp2]
      rw [toZMod_mul q hq base base hbasep]
      by_cases h : (k + 1) % 2 = 1
      · rw [if_pos h, toZMod_mul q hq res base hresp]
        have hk : 2 * ((k + 1) / 2) + 1 = k + 1 := by omega
        conv_rhs => rw [← hk]
        rw [pow_succ, pow_mul, pow_two]
        ring
      · rw [if_neg h]
        have hk : 2 * ((k + 1) / 2) = k + 1 := by omega
        conv_rhs => rw [← hk]
        rw [pow_mul, pow_two]

lemma toZMod_pow (q : ℕ) (hq : 0 < q) {a : FieldElement}
    (hap : a.p = (q : ℤ)) (e : ℕ) :
    toZMod q (a.pow e) = (toZMod q a) ^ e := by
  unfold pow
  rw [hap, toZMod_powLoop q hq e _ _ rfl hap, toZMod_new q hq 1, Int.cast_one,
    one_mul]

lemma toZMod_inj (q : ℕ) {a b : FieldElement} (haw : a.wf) (hbw : b.wf)
    (hap : a.p = (q : ℤ)) (hbp : b.p = (q : ℤ))
    (h : toZMod q a = toZMod q b) : a = b := by
  have h₁ : a.value % (q : ℤ) = b.value % (q : ℤ) :=
    (ZMod.intCast_eq_intCast_iff _ _ _).1 h
  rw [Int.emod_eq_of_lt haw.1 (hap ▸ haw.2),
    Int.emod_eq_of_lt hbw.1 (hbp ▸ hbw.2)] at h₁
  obtain ⟨av, aP⟩ := a
  obtain ⟨bv, bP⟩ := b
  simp only [mk.injEq]
  exact ⟨h₁, hap.trans hbp.symm⟩

lemma sqrt_exp_eq (q : ℕ) (a : FieldElement) (hap : a.p = (q : ℤ)) :
    ((a.p + 1).tdiv 4).toNat = (q + 1) / 4 := by
  rw [hap, show ((q : ℤ) + 1) = ((q + 1 : ℕ) : ℤ) from by push_cast; ring,
    show (4 : ℤ) = ((4 : ℕ) : ℤ) from rfl, ← Int.ofNat_tdiv]
  exact Int.toNat_natCast _

lemma sq_pow_q_add_one_div_four (q : ℕ) [Fact q.Prime] (hq4 : q % 4 = 3)
    (β : ZMod q) : ((β ^ 2) ^ ((q + 1) / 4)) ^ 2 = β ^ 2 := by
  by_cases hβ : β = 0
  · subst hβ
    have hm : (q + 1) / 4 ≠ 0 := by omega
    rw [zero_pow (by norm_num : (2 : ℕ) ≠ 0), zero_pow hm,
      zero_pow (by norm_num : (2 : ℕ) ≠ 0)]
  · have h4 : 4 * ((q + 1) / 4) = q + 1 := by omega
    have hq2 : 2 ≤ q := (Fact.out : q.Prime).two_le
    calc ((β ^ 2) ^ ((q + 1) / 4)) ^ 2
        = β ^ (4 * ((q + 1) / 4)) := by
          rw [← pow_mul, ← pow_mul]
          congr 1
          ring
      _ = β ^ (q + 1) := by rw [h4]
      _ = β ^ 2 * β ^ (q - 1) := by
          rw [← pow_add]
          congr 1
          omega
      _ = β ^ 2 := by rw [ZMod.pow_card_sub_one_eq_one hβ, mul_one]

end FieldElement

/-- C8: over a prime modulus `q ≡ 3 (mod 4)` and for `a` in canonical form,
`sqrt` returns (when it returns at all) exactly the candidate `a^((q+1)/4)`,
verified by squaring: any returned root `r` satisfies `r·r = a` and its
negation `q − r` also squares to `a`; and `sqrt` returns `none` exactly when
`a` is a quadratic non-residue, i.e. no element of the field squares to `a`. -/
theorem sqrt_correct (q : ℕ) [Fact q.Prime] (hq4 : q % 4 = 3)
    (a : FieldElement) (haw : a.wf) (hap : a.p = (q : ℤ)) :
    (∀ r, a.sqrt = some r →
      r = a.pow ((q + 1) / 4) ∧
      r.mul r = a ∧
      (FieldElement.new (a.p - r.value) a.p).mul
        (FieldElement.new (a.p - r.value) a.p) = a) ∧
    (a.sqrt = none ↔
      ¬ ∃ b : FieldElement, b.wf ∧ b.p = a.p ∧ b.mul b = a) := by
  have hq0 : 0 < q := (Fact.out : q.Prime).pos
  have hqz : (0 : ℤ) < (q : ℤ) := by exact_mod_cast hq0
  have hmod : a.p.tmod 4 = 3 := by
    rw [hap, Int.tmod_eq_emod (Int.natCast_nonneg q) (by norm_num),
      show (4 : ℤ) = ((4 : ℕ) : ℤ) from rfl, ← Int.natCast_mod, hq4]
    rfl
  have hexp : ((a.p + 1).tdiv 4).toNat = (q + 1) / 4 :=
    FieldElement.sqrt_exp_eq q a hap
  set n := (q + 1) / 4 with hn
  set c := a.pow n with hc
  have hcw : c.wf ∧ c.p = (q : ℤ) := FieldElement.pow_wf hqz hap n
  have hsq : a.sqrt = if c.mul c = a then some c else none := by
    rw [FieldElement.sqrt, if_pos hmod, hexp]
  have hccw : (c.mul c).wf :=
    FieldElement.new_wf (by rw [show c.p = (q : ℤ) from hcw.2]; exact hqz) _
  have hccp : (c.mul c).p = (q : ℤ) := hcw.2
  constructor
  · intro r hr
    rw [hsq] at hr
    by_cases hchk : c.mul c = a
    · rw [if_pos hchk] at hr
      have hrc : r = c := (Option.some.inj hr).symm
      subst hrc
      refine ⟨rfl, hchk, ?_⟩
      have hr'p : (FieldElement.new (a.p - c.value) a.p).p = (q : ℤ) := by
        rw [hap]; rfl
      have hXw : ((FieldElement.new (a.p - c.value) a.p).mul
          (FieldElement.new (a.p - c.value) a.p)).wf := by
        apply FieldElement.new_wf
        rw [show (FieldElement.new (a.p - c.value) a.p).p = (q : ℤ) from hr'p]
        exact hqz
      have hXp : ((FieldElement.new (a.p - c.value) a.p).mul
          (FieldElement.new (a.p - c.value) a.p)).p = (q : ℤ) := hr'p
      apply FieldElement.toZMod_inj q hXw haw hXp hap
      rw [FieldElement.toZMod_mul q hq0 _ _ hr'p]
      have ht : FieldElement.toZMod q (FieldElement.new (a.p - c.value) a.p)
          = - FieldElement.toZMod q c := by
        rw [hap, FieldElement.toZMod_new q hq0, Int.cast_sub,
          Int.cast_natCast, ZMod.natCast_self, zero_sub]
        rfl
      rw [ht, neg_mul_neg, ← FieldElement.toZMod_mul q hq0 c c hcw.2, hchk]
    · rw [if_neg hchk] at hr
      exact Option.noConfusion hr
  · rw [hsq]
    by_cases hchk : c.mul c = a
    · rw [if_pos hchk]
      constructor
      · intro h
        exact Option.noConfusion h
      · intro hno
        exact absurd ⟨c, hcw.1, hcw.2.trans hap.symm, hchk⟩ hno
    · rw [if_neg hchk]
      constructor
      · intro _
        rintro ⟨b, hbw, hbp, hbm⟩
        apply hchk
        have hbpq : b.p = (q : ℤ) := hbp.trans hap
        have hβ : FieldElement.toZMod q a = (FieldElement.toZMod q b) ^ 2 := by
          rw [← hbm, FieldElement.toZMod_mul q hq0 b b hbpq, pow_two]
        have hcc : FieldElement.toZMod q (c.mul c)
            = FieldElement.toZMod q a := by
          rw [FieldElement.toZMod_mul q hq0 c c hcw.2, ← pow_two, hc,
            FieldElement.toZMod_pow q hq0 hap n, hβ, hn]
          exact FieldElement.sq_pow_q_add_one_div_four q hq4
            (FieldElement.toZMod q b)
        exact FieldElement.toZMod_inj q hccw haw hccp hap hcc
      · intro _
        rfl

/-- Witness for `sqrt_correct`: the residue `2 mod 7` (with `7 ≡ 3 (mod 4)`). -/
theorem sqrt_correct_witness :
    (∀ r : FieldElement, FieldElement.sqrt ⟨2, 7⟩ = some r →
      r = FieldElement.pow ⟨2, 7⟩ ((7 + 1) / 4) ∧
      r.mul r = ⟨2, 7⟩ ∧
      (FieldElement.new ((⟨2, 7⟩ : FieldElement).p - r.value)
          (⟨2, 7⟩ : FieldElement).p).mul
        (FieldElement.new ((⟨2, 7⟩ : FieldElement).p - r.value)
          (⟨2, 7⟩ : FieldElement).p) = ⟨2, 7⟩) ∧
    (FieldElement.sqrt ⟨2, 7⟩ = none ↔
      ¬ ∃ b : FieldElement, b.wf ∧ b.p = (⟨2, 7⟩ : FieldElement).p ∧
        b.mul b = ⟨2, 7⟩) :=
  @sqrt_correct 7 ⟨by norm_num⟩ (by norm_num) ⟨2, 7⟩
    ⟨by norm_num, by norm_num⟩ rfl
